import Mathlib

/-!
Verification development for the rule-processing engine of the healthcare
claims repository (Modules/rule_processor.py).  Strings are modeled as
`String`/`List Char`; the Python regular-expression scans used by the
condition parser are implemented directly as left-to-right, fuel-based
scanners with the same backtracking behavior on these patterns; pandas
DataFrames are modeled as a column list plus rows of (column, value)
association lists; behavior that raises in Python/pandas is modeled with
`Except Unit`.
-/

namespace Rules

/-! ## Character classes (Python regex `\w`, `\s`, `\d`, `[<>=!]`) -/

def isWordChar (c : Char) : Bool := c.isAlphanum || c = '_'

def isSpaceChar (c : Char) : Bool :=
  c = ' ' || c = '\t' || c = '\n' || c = '\r' || c = '\x0b' || c = '\x0c'

def isOpChar (c : Char) : Bool := c = '<' || c = '>' || c = '=' || c = '!'

def isDigitChar (c : Char) : Bool := c.isDigit

/-! ## `re.sub(r'(?<![<>=!])=(?!=)', '==', s)` — first step of
`parse_condition_for_record_rule`.  The lookbehind/lookahead are checked
against the original string, and every isolated `=` is doubled. -/

def prevOp : Option Char → Bool
  | some p => isOpChar p
  | none => false

def headIsEq : List Char → Bool
  | [] => false
  | c :: _ => c = '='

def subEqGo : Option Char → List Char → List Char
  | _, [] => []
  | prev, c :: rest =>
    if c = '=' then
      if prevOp prev then '=' :: subEqGo (some '=') rest
      else if headIsEq rest then '=' :: subEqGo (some '=') rest
      else '=' :: '=' :: subEqGo (some '=') rest
    else c :: subEqGo (some c) rest

def subEq (s : List Char) : List Char := subEqGo none s

/-! ## Decimal rendering of the placeholder index (Python f-string `{i}`) -/

def natDigitsGo : Nat → Nat → List Char → List Char
  | 0, _, acc => acc
  | fuel+1, n, acc =>
    let d := Char.ofNat (48 + n % 10)
    if n < 10 then d :: acc else natDigitsGo fuel (n / 10) (d :: acc)

def natDigits (n : Nat) : List Char := natDigitsGo (n + 1) n []

def placeholder (i : Nat) : List Char :=
  "__QUOTE_".data ++ natDigits i ++ "__".data

/-! ## Quote extraction: `re.sub(r'"([^"]*)"', replace_quotes, parsed)`.
Each quoted span (quotes included, per `match.group(0)`) is replaced by
`__QUOTE_i__` and recorded, in order of occurrence. -/

def quoteScan : Nat → Nat → List Char → List Char × List (Nat × List Char)
  | 0, _, s => (s, [])
  | fuel+1, i, s =>
    match s with
    | [] => ([], [])
    | c :: rest =>
      if c = '"' then
        match rest.dropWhile (fun x => x ≠ '"') with
        | [] => (c :: rest, [])
        | d :: after =>
          if d = '"' then
            (placeholder i ++ (quoteScan fuel (i + 1) after).1,
             (i, '"' :: (rest.takeWhile (fun x => x ≠ '"') ++ ['"'])) ::
               (quoteScan fuel (i + 1) after).2)
          else (c :: rest, [])
      else (c :: (quoteScan fuel i rest).1, (quoteScan fuel i rest).2)

/-! ## `str.replace(old, new)`: all occurrences, left to right, one pass. -/

def replaceGo : Nat → List Char → List Char → List Char → List Char
  | 0, _, _, s => s
  | fuel+1, pat, rep, s =>
    match s with
    | [] => []
    | c :: rest =>
      if pat.isPrefixOf s then rep ++ replaceGo fuel pat rep (s.drop pat.length)
      else c :: replaceGo fuel pat rep rest

def replaceAll (pat rep s : List Char) : List Char := replaceGo s.length pat rep s

/-- The restore loop `for placeholder, original in quoted_parts.items():
parsed = parsed.replace(placeholder, original)` (dicts iterate in insertion
order). -/
def restore : List (Nat × List Char) → List Char → List Char
  | [], s => s
  | (i, orig) :: rest, s => restore rest (replaceAll (placeholder i) orig s)

/-- `parse_condition_for_record_rule`: rewrite isolated `=` to `==`
(everywhere, including inside quotes — the substitution happens before the
quote machinery runs), then pull quoted spans out into placeholders and
immediately substitute them back in. -/
def parse_condition_for_record_rule (s : String) : String :=
  let step1 := subEq s.data
  let (p, spans) := quoteScan (step1.length + 1) 0 step1
  ⟨restore spans p⟩

/-! ## Numeric literals `(\d+(?:\.\d+)?)`, converted by `float(...)` -/

def digitsToNat (ds : List Char) : Nat :=
  ds.foldl (fun a c => a * 10 + (c.toNat - 48)) 0

def ratOfDigits (ip fp : List Char) : Rat :=
  mkRat ((digitsToNat ip * 10 ^ fp.length + digitsToNat fp : Nat) : Int) (10 ^ fp.length)

/-! ## `extract_self_comparisons`: `re.finditer(r'(\w+)\s*=\s*\1', cond)`.
At each start position the greedy `(\w+)` takes the maximal word run (any
shorter prefix is followed by a word character and cannot be followed by
`\s*=`), then `\s*=\s*` and the backreference are required; on success the
scan resumes after the match, on failure at the next character. -/

def selfGo : Nat → List Char → List String
  | 0, _ => []
  | _+1, [] => []
  | fuel+1, c :: rest =>
    if isWordChar c then
      let s := c :: rest
      let w := s.takeWhile isWordChar
      let a2 := (s.dropWhile isWordChar).dropWhile isSpaceChar
      match a2 with
      | '=' :: a3 =>
        let a4 := a3.dropWhile isSpaceChar
        if w.isPrefixOf a4 then
          (⟨w⟩ : String) :: selfGo fuel (a4.drop w.length)
        else selfGo fuel rest
      | _ => selfGo fuel rest
    else selfGo fuel rest

def extract_self_comparisons (cond : String) : List String :=
  selfGo cond.data.length cond.data

/-! ## `extract_value_comparisons`: numeric matches
`(\w+)\s*([<>=!]+)\s*(\d+(?:\.\d+)?)` then string matches
`(\w+)\s*([<>=!]+)\s*"([^"]*)"`, concatenated. -/

inductive Lit where
  | num (q : Rat)
  | str (s : String)
deriving DecidableEq, Repr

def numGo : Nat → List Char → List (String × String × Rat)
  | 0, _ => []
  | _+1, [] => []
  | fuel+1, c :: rest =>
    if isWordChar c then
      let s := c :: rest
      let w := s.takeWhile isWordChar
      let a1 := (s.dropWhile isWordChar).dropWhile isSpaceChar
      let ops := a1.takeWhile isOpChar
      if ops.isEmpty then numGo fuel rest
      else
        let a2 := (a1.dropWhile isOpChar).dropWhile isSpaceChar
        let ip := a2.takeWhile isDigitChar
        if ip.isEmpty then numGo fuel rest
        else
          let a3 := a2.dropWhile isDigitChar
          match a3 with
          | '.' :: a4 =>
            let fp := a4.takeWhile isDigitChar
            if fp.isEmpty then ((⟨w⟩ : String), (⟨ops⟩ : String), ratOfDigits ip []) :: numGo fuel a3
            else ((⟨w⟩ : String), (⟨ops⟩ : String), ratOfDigits ip fp) :: numGo fuel (a4.dropWhile isDigitChar)
          | _ => ((⟨w⟩ : String), (⟨ops⟩ : String), ratOfDigits ip []) :: numGo fuel a3
    else numGo fuel rest

def strGo : Nat → List Char → List (String × String × String)
  | 0, _ => []
  | _+1, [] => []
  | fuel+1, c :: rest =>
    if isWordChar c then
      let s := c :: rest
      let w := s.takeWhile isWordChar
      let a1 := (s.dropWhile isWordChar).dropWhile isSpaceChar
      let ops := a1.takeWhile isOpChar
      if ops.isEmpty then strGo fuel rest
      else
        let a2 := (a1.dropWhile isOpChar).dropWhile isSpaceChar
        match a2 with
        | '"' :: a3 =>
          let content := a3.takeWhile (fun c => c ≠ '"')
          let a4 := a3.dropWhile (fun c => c ≠ '"')
          match a4 with
          | '"' :: a5 => ((⟨w⟩ : String), (⟨ops⟩ : String), (⟨content⟩ : String)) :: strGo fuel a5
          | _ => strGo fuel rest
        | _ => strGo fuel rest
    else strGo fuel rest

def extract_value_comparisons (cond : String) : List (String × String × Lit) :=
  (numGo cond.data.length cond.data).map (fun p => (p.1, p.2.1, Lit.num p.2.2))
    ++ (strGo cond.data.length cond.data).map (fun p => (p.1, p.2.1, Lit.str p.2.2))

/-! ## `extract_field_differences`:
`(\w+)\s*-\s*(\w+)\s*([<>=!]+)\s*(\d+(?:\.\d+)?)` -/

def diffGo : Nat → List Char → List (String × String × String × Rat)
  | 0, _ => []
  | _+1, [] => []
  | fuel+1, c :: rest =>
    if isWordChar c then
      let s := c :: rest
      let w1 := s.takeWhile isWordChar
      let a1 := (s.dropWhile isWordChar).dropWhile isSpaceChar
      match a1 with
      | '-' :: a2 =>
        let a3 := a2.dropWhile isSpaceChar
        let w2 := a3.takeWhile isWordChar
        if w2.isEmpty then diffGo fuel rest
        else
          let a4 := (a3.dropWhile isWordChar).dropWhile isSpaceChar
          let ops := a4.takeWhile isOpChar
          if ops.isEmpty then diffGo fuel rest
          else
            let a5 := (a4.dropWhile isOpChar).dropWhile isSpaceChar
            let ip := a5.takeWhile isDigitChar
            if ip.isEmpty then diffGo fuel rest
            else
              let a6 := a5.dropWhile isDigitChar
              match a6 with
              | '.' :: a7 =>
                let fp := a7.takeWhile isDigitChar
                if fp.isEmpty then ((⟨w1⟩ : String), (⟨w2⟩ : String), (⟨ops⟩ : String), ratOfDigits ip []) :: diffGo fuel a6
                else ((⟨w1⟩ : String), (⟨w2⟩ : String), (⟨ops⟩ : String), ratOfDigits ip fp) :: diffGo fuel (a7.dropWhile isDigitChar)
              | _ => ((⟨w1⟩ : String), (⟨w2⟩ : String), (⟨ops⟩ : String), ratOfDigits ip []) :: diffGo fuel a6
      | _ => diffGo fuel rest
    else diffGo fuel rest

def extract_field_differences (cond : String) : List (String × String × String × Rat) :=
  diffGo cond.data.length cond.data

/-! ## Data model: a pandas DataFrame as a column list plus rows of
(column, value) association lists.  Cell values are strings, numbers
(Python floats modeled as `Rat`) or dates (day numbers); a value read from
a claims file is one of these. -/

inductive Value where
  | str (s : String)
  | num (q : Rat)
  | date (d : Int)
deriving DecidableEq, Repr

abbrev Row := List (String × Value)

structure DF where
  cols : List String
  rows : List Row
deriving DecidableEq, Repr

/-- `pd.DataFrame()` — the schema-less empty frame returned on error or
no-match inside the evaluators. -/
def DF.emptyDF : DF := ⟨[], []⟩

def lookupRow (f : String) : Row → Option Value
  | [] => none
  | (k, v) :: rest => if k = f then some v else lookupRow f rest

def hasKeyR (f : String) (r : Row) : Bool := (lookupRow f r).isSome

/-- Python string comparison: lexicographic on code points. -/
def charListLt : List Char → List Char → Bool
  | [], [] => false
  | [], _ :: _ => true
  | _ :: _, [] => false
  | a :: as, b :: bs =>
    if a.toNat < b.toNat then true
    else if b.toNat < a.toNat then false
    else charListLt as bs

def strLtB (a b : String) : Bool := charListLt a.data b.data

/-! ## Element-wise pandas comparison of a cell against a scalar literal.
`==`/`!=` between mismatched types yield False/True; an ordering
comparison between mismatched types raises (modeled as `Except.error`);
a date (datetime64) cell compared to a number or to a string raises on
ordering comparisons. -/

def pdEqVL (v : Value) (l : Lit) : Bool :=
  match v, l with
  | .num x, .num q => x = q
  | .str s, .str t => s = t
  | _, _ => false

def pdLtVL (v : Value) (l : Lit) : Except Unit Bool :=
  match v, l with
  | .num x, .num q => .ok (x < q)
  | .str s, .str t => .ok (strLtB s t)
  | _, _ => .error ()

def pdLeVL (v : Value) (l : Lit) : Except Unit Bool :=
  match v, l with
  | .num x, .num q => .ok (x ≤ q)
  | .str s, .str t => .ok (strLtB s t || s = t)
  | _, _ => .error ()

def pdGtVL (v : Value) (l : Lit) : Except Unit Bool :=
  match v, l with
  | .num x, .num q => .ok (q < x)
  | .str s, .str t => .ok (strLtB t s)
  | _, _ => .error ()

def pdGeVL (v : Value) (l : Lit) : Except Unit Bool :=
  match v, l with
  | .num x, .num q => .ok (q ≤ x)
  | .str s, .str t => .ok (strLtB t s || s = t)
  | _, _ => .error ()

/-- One cell against the literal of a value comparison, dispatching on the
operator string exactly as the `if/elif` chain in
`apply_dataset_level_rule` does.  A missing cell behaves like NaN: every
comparison is False.  An operator not in the chain is unreachable here
(the caller filters first). -/
def vcTest (f op : String) (lit : Lit) (r : Row) : Except Unit Bool :=
  match lookupRow f r with
  | none => .ok false
  | some v =>
    if op = "==" then .ok (pdEqVL v lit)
    else if op = "!=" then .ok (!(pdEqVL v lit))
    else if op = ">" then pdGtVL v lit
    else if op = ">=" then pdGeVL v lit
    else if op = "<" then pdLtVL v lit
    else if op = "<=" then pdLeVL v lit
    else .ok true

def filterE (p : Row → Except Unit Bool) : List Row → Except Unit (List Row)
  | [] => .ok []
  | r :: rest => do
    let b ← p r
    let rest2 ← filterE p rest
    pure (if b then r :: rest2 else rest2)

/-- One value comparison applied as a boolean-mask prefilter.  A field
absent from the schema, or an operator outside the six handled ones, is
non-constraining (no `if` branch fires); an element-wise type error
propagates as an exception. -/
def applyVC (df : DF) (vc : String × String × Lit) : Except Unit DF :=
  let (f, op, lit) := vc
  if df.cols.contains f then
    if op ∈ (["==", "!=", ">", ">=", "<", "<="] : List String) then
      (filterE (vcTest f op lit) df.rows).map (fun rs => ⟨df.cols, rs⟩)
    else .ok df
  else .ok df

def prefilterDF (df : DF) (vcs : List (String × String × Lit)) : Except Unit DF :=
  vcs.foldlM applyVC df

/-! ## Duplicate detection and grouping for dataset-level rules -/

def rowKey (selfs : List String) (r : Row) : List (Option Value) :=
  selfs.map (fun f => lookupRow f r)

/-- `df.duplicated(subset=selfs, keep=False)`: keep the rows whose key
tuple occurs at least twice. -/
def dupRows (selfs : List String) (rows : List Row) : List Row :=
  rows.filter (fun r =>
    2 ≤ (rows.filter (fun r2 => rowKey selfs r2 = rowKey selfs r)).length)

def dedupKeysGo : List (List (Option Value)) → List (List (Option Value)) → List (List (Option Value))
  | _, [] => []
  | seen, k :: rest =>
    if k ∈ seen then dedupKeysGo seen rest else k :: dedupKeysGo (k :: seen) rest

/-- `groupby(selfs)`: rows partitioned by key; inside a group the original
order is kept.  (pandas lists groups in sorted key order; we use first
appearance order, which no property below depends on.) -/
def groupsOf (selfs : List String) (rows : List Row) : List (List Row) :=
  (dedupKeysGo [] (rows.map (rowKey selfs))).map
    (fun k => rows.filter (fun r => rowKey selfs r = k))

/-- The `for i, row1 ... for j, row2 ... if i >= j: continue` double loop:
ordered pairs of distinct rows in index order. -/
def listPairs : List Row → List (Row × Row)
  | [] => []
  | a :: rest => rest.map (fun b => (a, b)) ++ listPairs rest

/-! ## Pairwise field-difference distances -/

def occursB : List Char → List Char → Bool
  | pat, [] => pat.isEmpty
  | pat, c :: rest => pat.isPrefixOf (c :: rest) || occursB pat rest

def containsSub (s pat : String) : Bool := occursB pat.data s.data

/-- `str.lower()` on the ASCII range (field names are ASCII). -/
def lowerChar (c : Char) : Char :=
  if 65 ≤ c.toNat && c.toNat ≤ 90 then Char.ofNat (c.toNat + 32) else c

def lowerStr (s : String) : String := ⟨s.data.map lowerChar⟩

def isDateField (f : String) : Bool :=
  containsSub (lowerStr f) "date" || containsSub (lowerStr f) "from" ||
    containsSub (lowerStr f) "to"

/-- `pd.to_datetime(value)`: succeeds on date-typed cells.  (The epoch
interpretation of raw numbers is not modeled; a string or numeric cell is
a conversion failure.) -/
def toDateV : Value → Option Int
  | .date d => some d
  | _ => none

/-- `float(value)`: succeeds on numeric cells; `float` of a date raises.
(Parsing numerals out of string cells is not modeled; a string cell is a
conversion failure.) -/
def toNumV : Value → Option Rat
  | .num q => some q
  | _ => none

/-- Kernel-reducible subtraction on `Rat` (the `-` of the algebraic
hierarchy does not reduce definitionally). -/
def ratSub (x y : Rat) : Rat :=
  mkRat (x.num * (y.den : Int) - y.num * (x.den : Int)) (x.den * y.den)

/-- The distance for one field-difference constraint over a pair of rows:
absolute day difference when `field1` names a date-like field, absolute
numeric difference otherwise; `none` stands for the `float('inf')`
assigned when a conversion fails. -/
def pairDiff (r1 r2 : Row) (f1 f2 : String) : Option Rat :=
  if isDateField f1 then
    match (lookupRow f1 r1).bind toDateV, (lookupRow f2 r2).bind toDateV with
    | some d1, some d2 => some (((d1 - d2).natAbs : Nat) : Rat)
    | _, _ => none
  else
    match (lookupRow f1 r1).bind toNumV, (lookupRow f2 r2).bind toNumV with
    | some x, some y => some (if x ≤ y then ratSub y x else ratSub x y)
    | _, _ => none

/-! Comparisons of a possibly-infinite distance against a finite
threshold, with IEEE infinity polarity. -/

def infLt (d : Option Rat) (t : Rat) : Bool := match d with | some x => x < t | none => false
def infLe (d : Option Rat) (t : Rat) : Bool := match d with | some x => x ≤ t | none => false
def infGt (d : Option Rat) (t : Rat) : Bool := match d with | some x => t < x | none => true
def infGe (d : Option Rat) (t : Rat) : Bool := match d with | some x => t ≤ x | none => true
def infEq (d : Option Rat) (t : Rat) : Bool := match d with | some x => x = t | none => false
def infNe (d : Option Rat) (t : Rat) : Bool := match d with | some x => x ≠ t | none => true

/-- The operator dispatch of the pairwise check: `differences_met` is set
to False exactly when a listed operator's comparison fails; an operator
outside the chain leaves the pair accepted. -/
def diffHolds (d : Option Rat) (op : String) (t : Rat) : Bool :=
  if op = "<" then infLt d t
  else if op = "<=" then infLe d t
  else if op = ">" then infGt d t
  else if op = ">=" then infGe d t
  else if op = "==" then infEq d t
  else if op = "!=" then infNe d t
  else true

/-- One field-difference constraint on a pair of rows; a constraint whose
fields are not both present is skipped (`if field1 in row1.index and
field2 in row2.index`). -/
def constraintOk (r1 r2 : Row) : String × String × String × Rat → Bool
  | (f1, f2, op, t) =>
    if hasKeyR f1 r1 && hasKeyR f2 r2 then diffHolds (pairDiff r1 r2 f1 f2) op t
    else true

def differencesMet (ds : List (String × String × String × Rat)) (r1 r2 : Row) : Bool :=
  ds.all (constraintOk r1 r2)

/-! ## Tagging matches and assembling results -/

/-- `df[col] = value`: overwrite the column when present, append otherwise. -/
def assignRow (col : String) (v : Value) : Row → Row
  | [] => [(col, v)]
  | (k, w) :: rest => if k = col then (col, v) :: rest else (k, w) :: assignRow col v rest

def DF.assign (df : DF) (col : String) (v : Value) : DF :=
  if df.cols.contains col then ⟨df.cols, df.rows.map (assignRow col v)⟩
  else ⟨df.cols ++ [col], df.rows.map (fun r => r ++ [(col, v)])⟩

def tagDF (df : DF) (id : Nat) (desc : String) : DF :=
  (df.assign "rule_id" (.num (id : Rat))).assign "rule_desc" (.str desc)

/-- `drop_duplicates()`: keep the first occurrence of each row value. -/
def dedupGo : List Row → List Row → List Row
  | _, [] => []
  | seen, r :: rest =>
    if r ∈ seen then dedupGo seen rest else r :: dedupGo (r :: seen) rest

/-! ## `apply_dataset_level_rule` -/

def apply_dataset_level_rule (pool : DF) (id : Nat) (desc cond : String) : DF :=
  let selfs := extract_self_comparisons cond
  let vcs := extract_value_comparisons cond
  let diffs := extract_field_differences cond
  match prefilterDF pool vcs with
  | .error _ => DF.emptyDF
  | .ok filtered =>
    if filtered.rows.isEmpty then DF.emptyDF
    else if !selfs.isEmpty then
      if selfs.all (fun f => filtered.cols.contains f) then
        let pm := dupRows selfs filtered.rows
        if pm.isEmpty then DF.emptyDF
        else if !diffs.isEmpty then
          let results := (groupsOf selfs pm).flatMap (fun g =>
            (listPairs g).flatMap (fun p =>
              if differencesMet diffs p.1 p.2 then [p.1, p.2] else []))
          if results.isEmpty then DF.emptyDF
          else tagDF ⟨filtered.cols, dedupGo [] results⟩ id desc
        else tagDF ⟨filtered.cols, pm⟩ id desc
      else DF.emptyDF
    else DF.emptyDF

/-! ## `df.query(...)` — the fragment of the pandas query language that
the documented condition grammar can produce: comparisons between column
references and literals (numbers or double-quoted strings) combined with
`and`/`or`/`&`/`|` and parentheses.  A reference to an absent column, a
string that does not parse, or an ordering comparison between mismatched
types raises — all modeled as `Except.error`, caught at the rule
boundary. -/

inductive QTok where
  | ident (s : String)
  | num (q : Rat)
  | str (s : String)
  | ltT | leT | gtT | geT | eqT | neT
  | andT | orT | lp | rp
deriving DecidableEq, Repr

def tokenizeGo : Nat → List Char → Except Unit (List QTok)
  | 0, _ => .error ()
  | _+1, [] => .ok []
  | fuel+1, c :: rest =>
    if isSpaceChar c then tokenizeGo fuel rest
    else if isDigitChar c then
      let s := c :: rest
      let ip := s.takeWhile isDigitChar
      let a1 := s.dropWhile isDigitChar
      match a1 with
      | '.' :: a2 =>
        let fp := a2.takeWhile isDigitChar
        if fp.isEmpty then .error ()
        else (tokenizeGo fuel (a2.dropWhile isDigitChar)).map (QTok.num (ratOfDigits ip fp) :: ·)
      | _ => (tokenizeGo fuel a1).map (QTok.num (ratOfDigits ip []) :: ·)
    else if isWordChar c then
      let s := c :: rest
      let w := s.takeWhile isWordChar
      let a1 := s.dropWhile isWordChar
      let tk := if (⟨w⟩ : String) = "and" then QTok.andT
                else if (⟨w⟩ : String) = "or" then QTok.orT
                else QTok.ident ⟨w⟩
      (tokenizeGo fuel a1).map (tk :: ·)
    else if c = '"' then
      let content := rest.takeWhile (fun d => d ≠ '"')
      match rest.dropWhile (fun d => d ≠ '"') with
      | '"' :: a1 => (tokenizeGo fuel a1).map (QTok.str ⟨content⟩ :: ·)
      | _ => .error ()
    else if c = '<' then
      match rest with
      | '=' :: a1 => (tokenizeGo fuel a1).map (QTok.leT :: ·)
      | _ => (tokenizeGo fuel rest).map (QTok.ltT :: ·)
    else if c = '>' then
      match rest with
      | '=' :: a1 => (tokenizeGo fuel a1).map (QTok.geT :: ·)
      | _ => (tokenizeGo fuel rest).map (QTok.gtT :: ·)
    else if c = '=' then
      match rest with
      | '=' :: a1 => (tokenizeGo fuel a1).map (QTok.eqT :: ·)
      | _ => .error ()
    else if c = '!' then
      match rest with
      | '=' :: a1 => (tokenizeGo fuel a1).map (QTok.neT :: ·)
      | _ => .error ()
    else if c = '&' then (tokenizeGo fuel rest).map (QTok.andT :: ·)
    else if c = '|' then (tokenizeGo fuel rest).map (QTok.orT :: ·)
    else if c = '(' then (tokenizeGo fuel rest).map (QTok.lp :: ·)
    else if c = ')' then (tokenizeGo fuel rest).map (QTok.rp :: ·)
    else .error ()

inductive QAtom where
  | field (f : String)
  | litN (q : Rat)
  | litS (s : String)
deriving DecidableEq, Repr

inductive QExpr where
  | cmp (l : QAtom) (op : String) (r : QAtom)
  | andE (a b : QExpr)
  | orE (a b : QExpr)
deriving DecidableEq, Repr

def takeAtom : List QTok → Except Unit (QAtom × List QTok)
  | .ident f :: ts => .ok (.field f, ts)
  | .num q :: ts => .ok (.litN q, ts)
  | .str s :: ts => .ok (.litS s, ts)
  | _ => .error ()

def takeCmpOp : List QTok → Except Unit (String × List QTok)
  | .ltT :: ts => .ok ("<", ts)
  | .leT :: ts => .ok ("<=", ts)
  | .gtT :: ts => .ok (">", ts)
  | .geT :: ts => .ok (">=", ts)
  | .eqT :: ts => .ok ("==", ts)
  | .neT :: ts => .ok ("!=", ts)
  | _ => .error ()

mutual

def parseOrE : Nat → List QTok → Except Unit (QExpr × List QTok)
  | 0, _ => .error ()
  | fuel+1, ts => do
    let (a, ts1) ← parseAndE fuel ts
    parseOrRest fuel a ts1

def parseOrRest : Nat → QExpr → List QTok → Except Unit (QExpr × List QTok)
  | 0, _, _ => .error ()
  | fuel+1, a, ts =>
    match ts with
    | .orT :: ts1 => do
      let (b, ts2) ← parseAndE fuel ts1
      parseOrRest fuel (.orE a b) ts2
    | _ => .ok (a, ts)

def parseAndE : Nat → List QTok → Except Unit (QExpr × List QTok)
  | 0, _ => .error ()
  | fuel+1, ts => do
    let (a, ts1) ← parseCmpE fuel ts
    parseAndRest fuel a ts1

def parseAndRest : Nat → QExpr → List QTok → Except Unit (QExpr × List QTok)
  | 0, _, _ => .error ()
  | fuel+1, a, ts =>
    match ts with
    | .andT :: ts1 => do
      let (b, ts2) ← parseCmpE fuel ts1
      parseAndRest fuel (.andE a b) ts2
    | _ => .ok (a, ts)

def parseCmpE : Nat → List QTok → Except Unit (QExpr × List QTok)
  | 0, _ => .error ()
  | fuel+1, ts =>
    match ts with
    | .lp :: ts1 => do
      let (e, ts2) ← parseOrE fuel ts1
      match ts2 with
      | .rp :: ts3 => .ok (e, ts3)
      | _ => .error ()
    | _ => do
      let (l, ts1) ← takeAtom ts
      let (op, ts2) ← takeCmpOp ts1
      let (r, ts3) ← takeAtom ts2
      .ok (.cmp l op r, ts3)

end

def parseQuery (q : String) : Except Unit QExpr := do
  let toks ← tokenizeGo (q.data.length + 1) q.data
  let (e, rest) ← parseOrE (toks.length + 1) toks
  if rest.isEmpty then .ok e else .error ()

/-- Resolve an atom for one row; a column reference must exist in the
schema and in the row. -/
def atomVal (cols : List String) (r : Row) : QAtom → Except Unit Value
  | .field f =>
    if cols.contains f then
      match lookupRow f r with
      | some v => .ok v
      | none => .error ()
    else .error ()
  | .litN q => .ok (.num q)
  | .litS s => .ok (.str s)

def valEqVV (v w : Value) : Bool :=
  match v, w with
  | .num x, .num y => x = y
  | .str s, .str t => s = t
  | .date d, .date e => d = e
  | _, _ => false

def pdCmpVV (v w : Value) (op : String) : Except Unit Bool :=
  if op = "==" then .ok (valEqVV v w)
  else if op = "!=" then .ok (!(valEqVV v w))
  else
    match v, w with
    | .num x, .num y =>
      .ok (if op = "<" then x < y else if op = "<=" then x ≤ y
           else if op = ">" then y < x else y ≤ x)
    | .str s, .str t =>
      .ok (if op = "<" then strLtB s t else if op = "<=" then strLtB s t || s = t
           else if op = ">" then strLtB t s else strLtB t s || s = t)
    | .date d, .date e =>
      .ok (if op = "<" then d < e else if op = "<=" then d ≤ e
           else if op = ">" then e < d else e ≤ d)
    | _, _ => .error ()

def evalQ (cols : List String) (r : Row) : QExpr → Except Unit Bool
  | .cmp l op rhs => do
    let v ← atomVal cols r l
    let w ← atomVal cols r rhs
    pdCmpVV v w op
  | .andE a b => do
    let x ← evalQ cols r a
    let y ← evalQ cols r b
    pure (x && y)
  | .orE a b => do
    let x ← evalQ cols r a
    let y ← evalQ cols r b
    pure (x || y)

def dfQueryE (df : DF) (q : String) : Except Unit DF := do
  let e ← parseQuery q
  let rs ← filterE (fun r => evalQ df.cols r e) df.rows
  pure ⟨df.cols, rs⟩

/-! ## `apply_record_level_rule` -/

def apply_record_level_rule (pool : DF) (id : Nat) (desc cond : String) : DF :=
  match dfQueryE pool (parse_condition_for_record_rule cond) with
  | .error _ => DF.emptyDF
  | .ok res => if res.rows.isEmpty then DF.emptyDF else tagDF res id desc

/-! ## `apply_rules` — the orchestrator -/

structure Rule where
  Rule_ID : Nat
  Rule_Desc : String
  Level : String
  Rule_Allegation : String
deriving DecidableEq, Repr

def insertRule (r : Rule) : List Rule → List Rule
  | [] => [r]
  | x :: xs =>
    if r.Rule_ID < x.Rule_ID then r :: x :: xs else x :: insertRule r xs

/-- `rules_df.sort_values(by='Rule_ID')` (ascending). -/
def sortRules : List Rule → List Rule
  | [] => []
  | r :: rest => insertRule r (sortRules rest)

def rowVals (cols : List String) (r : Row) : List (Option Value) :=
  cols.map (fun c => lookupRow c r)

/-- Removal of identified claims: the composite key of a result row over
`key_columns` (the result's columns minus the two tag columns) is matched
against the composite key of each remaining claim over the pool's own
columns; matching rows are dropped. -/
def removeMatched (pool res : DF) : DF :=
  let keyCols := res.cols.filter (fun c => c ≠ "rule_id" && c ≠ "rule_desc")
  ⟨pool.cols, pool.rows.filter (fun r =>
    !(res.rows.any (fun m => decide (rowVals keyCols m = rowVals pool.cols r))))⟩

def applyRule (pool : DF) (r : Rule) : DF :=
  if r.Level = "Record" then
    apply_record_level_rule pool r.Rule_ID r.Rule_Desc r.Rule_Allegation
  else if r.Level = "DataSet" then
    apply_dataset_level_rule pool r.Rule_ID r.Rule_Desc r.Rule_Allegation
  else DF.emptyDF

/-- The sequential loop of `apply_rules`: the list `all_results` of
non-empty per-rule match sets, with the claim pool shrinking after every
match and the loop stopping when the pool empties. -/
def applyRulesAux : List Rule → DF → List DF
  | [], _ => []
  | r :: rest, pool =>
    if pool.rows.isEmpty then []
    else
      let res := applyRule pool r
      if res.rows.isEmpty then applyRulesAux rest pool
      else res :: applyRulesAux rest (removeMatched pool res)

def apply_rules (rules : List Rule) (claims : DF) : DF :=
  match applyRulesAux (sortRules rules) claims with
  | [] => ⟨claims.cols ++ ["rule_id", "rule_desc"], []⟩
  | chunk :: chunks => ⟨chunk.cols, (chunk :: chunks).map DF.rows |>.flatten⟩

/-! ## Concrete inputs used by the claim theorems -/

/-- Scenario 2 claims: three rows sharing `member_id`, service dates at
day 100, 101 (one day apart) and 110 (ten days from both). -/
def scenario2Claims : DF :=
  ⟨["member_id", "claim_service_from"],
   [[("member_id", .str "M1"), ("claim_service_from", .date 100)],
    [("member_id", .str "M1"), ("claim_service_from", .date 101)],
    [("member_id", .str "M1"), ("claim_service_from", .date 110)]]⟩

def scenario2Rules : List Rule :=
  [⟨1, "Close claims", "DataSet",
    "member_id = member_id AND claim_service_from - claim_service_from < 3"⟩]

/-- A claims table that already carries a column named `rule_id`. -/
def clashClaims : DF :=
  ⟨["claim_id", "rule_id"], [[("claim_id", .num 1), ("rule_id", .num 99)]]⟩

def clashRules : List Rule :=
  [⟨1, "r1", "Record", "claim_id = 1"⟩, ⟨2, "r2", "Record", "claim_id = 1"⟩]

/-- A one-row pool lacking the column `a`. -/
def missingColClaims : DF := ⟨["b"], [[("b", .num 1)]]⟩

/-! ## Helper lemmas about the embedded operations -/

theorem exceptBind_ok {α β : Type} (a : α) (f : α → Except Unit β) :
    (Except.ok a >>= f) = f a := rfl

theorem exceptBind_err {α β : Type} (e : Unit) (f : α → Except Unit β) :
    ((Except.error e : Except Unit α) >>= f) = Except.error e := rfl

theorem exceptMap_ok {α β : Type} (a : α) (f : α → β) :
    Except.map f (Except.ok a : Except Unit α) = Except.ok (f a) := rfl

theorem exceptMap_err {α β : Type} (e : Unit) (f : α → β) :
    Except.map f (Except.error e : Except Unit α) = (Except.error e : Except Unit β) := rfl

theorem exceptPure {α : Type} (a : α) :
    (pure a : Except Unit α) = Except.ok a := rfl

theorem contains_eq_false_of_not_mem {l : List String} {a : String}
    (h : a ∉ l) : l.contains a = false := by
  induction l with
  | nil => rfl
  | cons x xs ih =>
    have hax : (a == x) = false :=
      beq_eq_false_iff_ne.mpr (fun e => h (e ▸ List.mem_cons_self x xs))
    have h2 : a ∉ xs := fun hm => h (List.mem_cons_of_mem _ hm)
    show List.elem a (x :: xs) = false
    rw [List.elem_cons]
    simp only [hax]
    exact ih h2

theorem filterE_ok_sub {p : Row → Except Unit Bool} :
    ∀ {l l' : List Row}, filterE p l = .ok l' → ∀ r ∈ l', r ∈ l := by
  intro l
  induction l with
  | nil =>
    intro l' h
    simp only [filterE] at h
    cases h
    intro r hr
    exact hr
  | cons x xs ih =>
    intro l' h
    simp only [filterE] at h
    cases hp : p x with
    | error e => rw [hp, exceptBind_err] at h; cases h
    | ok b =>
      rw [hp, exceptBind_ok] at h
      cases hrest : filterE p xs with
      | error e => rw [hrest, exceptBind_err] at h; cases h
      | ok rest2 =>
        rw [hrest, exceptBind_ok, exceptPure] at h
        cases h
        intro r hr
        cases b with
        | true =>
          simp only [if_true] at hr
          rcases List.mem_cons.mp hr with h1 | h1
          · simp [h1]
          · exact List.mem_cons_of_mem _ (ih hrest r h1)
        | false =>
          simp only [Bool.false_eq_true, if_false] at hr
          exact List.mem_cons_of_mem _ (ih hrest r hr)

theorem applyVC_ok {df df' : DF} {vc : String × String × Lit}
    (h : applyVC df vc = .ok df') :
    df'.cols = df.cols ∧ ∀ r ∈ df'.rows, r ∈ df.rows := by
  rcases vc with ⟨f, op, lit⟩
  simp only [applyVC] at h
  by_cases hf : df.cols.contains f
  · simp only [hf, if_true] at h
    by_cases hop : op ∈ (["==", "!=", ">", ">=", "<", "<="] : List String)
    · simp only [hop, if_true] at h
      cases hfil : filterE (vcTest f op lit) df.rows with
      | error e => rw [hfil, exceptMap_err] at h; cases h
      | ok rs =>
        rw [hfil, exceptMap_ok] at h
        cases h
        exact ⟨rfl, fun r hr => filterE_ok_sub hfil r hr⟩
    · simp only [hop, if_false] at h
      cases h
      exact ⟨rfl, fun r hr => hr⟩
  · simp only [hf, if_false] at h
    cases h
    exact ⟨rfl, fun r hr => hr⟩

theorem prefilterDF_ok {vcs : List (String × String × Lit)} :
    ∀ {df df' : DF}, prefilterDF df vcs = .ok df' →
      df'.cols = df.cols ∧ ∀ r ∈ df'.rows, r ∈ df.rows := by
  induction vcs with
  | nil =>
    intro df df' h
    simp only [prefilterDF, List.foldlM, exceptPure] at h
    cases h
    exact ⟨rfl, fun r hr => hr⟩
  | cons vc vcs ih =>
    intro df df' h
    simp only [prefilterDF, List.foldlM] at h
    cases h1 : applyVC df vc with
    | error e => rw [h1, exceptBind_err] at h; cases h
    | ok dfm =>
      rw [h1, exceptBind_ok] at h
      have hm := applyVC_ok h1
      have hr := ih h
      exact ⟨hr.1.trans hm.1, fun r hrr => hm.2 r (hr.2 r hrr)⟩

theorem dedupGo_sub : ∀ (seen l : List Row), ∀ r ∈ dedupGo seen l, r ∈ l := by
  intro seen l
  induction l generalizing seen with
  | nil => intro r hr; simp [dedupGo] at hr
  | cons x xs ih =>
    intro r hr
    simp only [dedupGo] at hr
    by_cases hx : x ∈ seen
    · simp [hx] at hr
      exact List.mem_cons_of_mem _ (ih seen r hr)
    · simp [hx] at hr
      rcases hr with h1 | h1
      · simp [h1]
      · exact List.mem_cons_of_mem _ (ih (x :: seen) r h1)

theorem listPairs_mem : ∀ {l : List Row} {a b : Row},
    (a, b) ∈ listPairs l → a ∈ l ∧ b ∈ l := by
  intro l
  induction l with
  | nil => intro a b h; simp [listPairs] at h
  | cons x xs ih =>
    intro a b h
    simp only [listPairs, List.mem_append, List.mem_map] at h
    rcases h with ⟨c, hc, he⟩ | h
    · cases he
      exact ⟨by simp, List.mem_cons_of_mem _ hc⟩
    · have := ih h
      exact ⟨List.mem_cons_of_mem _ this.1, List.mem_cons_of_mem _ this.2⟩

theorem lookupRow_append_single {c k : String} {v : Value} (r : Row) (h : c ≠ k) :
    lookupRow c (r ++ [(k, v)]) = lookupRow c r := by
  induction r with
  | nil =>
    simp [lookupRow]
    exact fun e => h e.symm
  | cons p rest ih =>
    rcases p with ⟨k2, v2⟩
    simp only [List.cons_append, lookupRow]
    by_cases hk : k2 = c
    · simp [hk]
    · simp [hk, ih]

theorem rowVals_append_tags {C : List String}
    (hC : ∀ c ∈ C, c ≠ "rule_id" ∧ c ≠ "rule_desc") (r : Row) (v w : Value) :
    rowVals C (r ++ [("rule_id", v)] ++ [("rule_desc", w)]) = rowVals C r := by
  simp only [rowVals]
  apply List.map_congr_left
  intro c hc
  rw [lookupRow_append_single _ (hC c hc).2, lookupRow_append_single _ (hC c hc).1]

/-! ## C2 -/

/-- C2: the spec's Scenario 2 does not hold on the code.  The value
comparison extractor also matches the tail `claim_service_from < 3` of
the field-difference pattern, the resulting prefilter compares the date
column `claim_service_from` against the number 3, that element-wise
comparison raises, the exception is caught at the rule boundary and the
rule contributes nothing: `apply_rules` returns the empty table instead
of the two close rows. -/
theorem scenario2_yields_empty :
    apply_rules scenario2Rules scenario2Claims =
      ⟨["member_id", "claim_service_from", "rule_id", "rule_desc"], []⟩ := by
  decide

/-! ## C3 -/

/-- C3: quoted literals are not protected.  The `=` → `==` substitution
runs before the quote placeholder machinery (which only removes and
immediately restores the quoted spans), so the `=` inside the quoted
literal is rewritten as well: `status = "A=B"` normalizes to
`status == "A==B"`, not to `status == "A=B"` as the claim states. -/
theorem quoted_equals_is_rewritten :
    parse_condition_for_record_rule "status = \"A=B\"" = "status == \"A==B\"" := by
  decide

/-! ## C6 -/

/-- C6 counterexample: normalization is not idempotent.  On the input
`"a""b"QUOTE_0__z` the restore loop's `str.replace` also rewrites the
text that the span contents recreate next to a later placeholder, so the
first normalization yields `"a"__QUOTE_1"a"z` and the second
`"a""a"QUOTE_1__z`. -/
theorem normalize_not_idempotent :
    parse_condition_for_record_rule (parse_condition_for_record_rule "\"a\"\"b\"QUOTE_0__z") ≠
      parse_condition_for_record_rule "\"a\"\"b\"QUOTE_0__z" := by
  decide

/-! ## C4 counterexample -/

/-- C4 counterexample: per-row tolerance does not hold.  On a pool with
only column `b`, the condition `a > 5 or b > 0` references the missing
column `a`; the query raises for the whole rule and the rule yields the
empty set, although the row satisfies the unaffected disjunct `b > 0`
(the same rule with condition `b > 0` matches it). -/
theorem missing_field_empties_whole_rule :
    apply_record_level_rule missingColClaims 1 "d" "a > 5 or b > 0" = DF.emptyDF ∧
      apply_record_level_rule missingColClaims 1 "d" "b > 0" =
        ⟨["b", "rule_id", "rule_desc"],
         [[("b", .num 1), ("rule_id", .num 1), ("rule_desc", .str "d")]]⟩ := by
  constructor
  · decide
  · decide

/-! ## C5 -/

/-- C5: coercion-failure polarity.  When either field value fails to
convert (to a date in the date branch, to a number in the numeric
branch), the computed distance is `float('inf')` (modeled `none`), and
that distance fails the constraint for `<`, `<=`, `==` at any finite
threshold and satisfies it for `>`, `>=`, `!=`; the pair check is not
aborted (the constraint simply evaluates to a boolean). -/
theorem coercion_failure_polarity (r1 r2 : Row) (f1 f2 op : String) (t : Rat)
    (hfail : (isDateField f1 = true ∧
        ((lookupRow f1 r1).bind toDateV = none ∨ (lookupRow f2 r2).bind toDateV = none)) ∨
      (isDateField f1 = false ∧
        ((lookupRow f1 r1).bind toNumV = none ∨ (lookupRow f2 r2).bind toNumV = none))) :
    pairDiff r1 r2 f1 f2 = none ∧
      ((op = "<" ∨ op = "<=" ∨ op = "==") →
        diffHolds (pairDiff r1 r2 f1 f2) op t = false) ∧
      ((op = ">" ∨ op = ">=" ∨ op = "!=") →
        diffHolds (pairDiff r1 r2 f1 f2) op t = true) := by
  have hmain : pairDiff r1 r2 f1 f2 = none := by
    simp only [pairDiff]
    rcases hfail with ⟨hd, hn⟩ | ⟨hd, hn⟩
    · simp only [hd, if_true]
      rcases hn with h | h
      · rw [h]
      · rw [h]
        cases (lookupRow f1 r1).bind toDateV <;> rfl
    · simp only [hd, Bool.false_eq_true, if_false]
      rcases hn with h | h
      · rw [h]
      · rw [h]
        cases (lookupRow f1 r1).bind toNumV <;> rfl
  refine ⟨hmain, ?_, ?_⟩
  · rw [hmain]
    rintro (ho | ho | ho) <;> subst ho <;> rfl
  · rw [hmain]
    rintro (ho | ho | ho) <;> subst ho <;> rfl

/-- Witness for C5 at a concrete pair: a date-named field holding a
non-date string on the left row. -/
theorem coercion_failure_polarity_witness :
    ((isDateField "claim_date" = true ∧
        ((lookupRow "claim_date" [("claim_date", Value.str "oops")]).bind toDateV = none ∨
          (lookupRow "claim_date" [("claim_date", Value.date 5)]).bind toDateV = none)) ∨
      (isDateField "claim_date" = false ∧
        ((lookupRow "claim_date" [("claim_date", Value.str "oops")]).bind toNumV = none ∨
          (lookupRow "claim_date" [("claim_date", Value.date 5)]).bind toNumV = none))) ∧
      (pairDiff [("claim_date", Value.str "oops")] [("claim_date", Value.date 5)]
          "claim_date" "claim_date" = none ∧
        (("<" = "<" ∨ "<" = "<=" ∨ "<" = "==") →
          diffHolds (pairDiff [("claim_date", Value.str "oops")]
            [("claim_date", Value.date 5)] "claim_date" "claim_date") "<" 7 = false) ∧
        (("<" = ">" ∨ "<" = ">=" ∨ "<" = "!=") →
          diffHolds (pairDiff [("claim_date", Value.str "oops")]
            [("claim_date", Value.date 5)] "claim_date" "claim_date") "<" 7 = true)) :=
  ⟨by decide,
    coercion_failure_polarity [("claim_date", Value.str "oops")]
      [("claim_date", Value.date 5)] "claim_date" "claim_date" "<" 7 (by decide)⟩

/-! ## C7 -/

/-- C7: empty-result schema stability.  An empty claims table or an empty
rules table makes the sequential loop produce no result chunks, and
whenever the loop produces no chunks (no rule matched anything),
`apply_rules` returns the empty table whose columns are exactly the
claims columns followed by `rule_id` and `rule_desc`. -/
theorem empty_result_schema (rules : List Rule) (claims : DF) :
    ((claims.rows = [] ∨ rules = []) → applyRulesAux (sortRules rules) claims = []) ∧
      (applyRulesAux (sortRules rules) claims = [] →
        apply_rules rules claims = ⟨claims.cols ++ ["rule_id", "rule_desc"], []⟩) := by
  constructor
  · rintro (h | h)
    · cases hs : sortRules rules with
      | nil => rfl
      | cons r rest => simp [applyRulesAux, h]
    · subst h; rfl
  · intro h
    simp [apply_rules, h]

/-- Witness for C7: an empty rules list over the Scenario-2 claims. -/
theorem empty_result_schema_witness :
    apply_rules [] scenario2Claims =
      ⟨["member_id", "claim_service_from", "rule_id", "rule_desc"], []⟩ :=
  (empty_result_schema [] scenario2Claims).2
    ((empty_result_schema [] scenario2Claims).1 (Or.inr rfl))

/-! ## C9 -/

theorem dataset_no_selfcomp (df : DF) (id : Nat) (desc cond : String)
    (h : extract_self_comparisons cond = []) :
    apply_dataset_level_rule df id desc cond = DF.emptyDF := by
  simp only [apply_dataset_level_rule, h]
  cases hpre : prefilterDF df (extract_value_comparisons cond) with
  | error e => rfl
  | ok filtered => by_cases hf : filtered.rows.isEmpty <;> simp [hf]

/-! ## C10 -/

/-- C10: a grouping field missing from the pool disables the whole
DataSet rule — the `all(field in columns)` guard fails, no grouping
happens and the unrecognized-structure branch returns the empty frame —
whereas a value comparison whose field is absent is silently
non-constraining (`applyVC` returns the pool unchanged). -/
theorem missing_grouping_column_disables (df : DF) (id : Nat) (desc cond f : String)
    (hne : extract_self_comparisons cond ≠ [])
    (hf : f ∈ extract_self_comparisons cond) (hmiss : f ∉ df.cols) :
    apply_dataset_level_rule df id desc cond = DF.emptyDF ∧
      ∀ (df2 : DF) (op : String) (lit : Lit), f ∉ df2.cols →
        applyVC df2 (f, op, lit) = .ok df2 := by
  constructor
  · simp only [apply_dataset_level_rule]
    cases hpre : prefilterDF df (extract_value_comparisons cond) with
    | error e => rfl
    | ok filtered =>
      cases hfe : filtered.rows.isEmpty with
      | true => simp [hfe]
      | false =>
        have hcols := (prefilterDF_ok hpre).1
        have hne2 : (!(extract_self_comparisons cond).isEmpty) = true := by
          cases hsc : extract_self_comparisons cond with
          | nil => exact absurd hsc hne
          | cons a l => rfl
        have hcont : filtered.cols.contains f = false := by
          rw [hcols]
          exact contains_eq_false_of_not_mem hmiss
        have hall : (extract_self_comparisons cond).all
            (fun g => filtered.cols.contains g) = false := by
          cases hb : (extract_self_comparisons cond).all (fun g => filtered.cols.contains g) with
          | false => rfl
          | true =>
            have := List.all_eq_true.mp hb f hf
            rw [hcont] at this
            cases this
        simp only [hfe, Bool.false_eq_true, if_false, hne2, if_true, hall]
  · intro df2 op lit hm
    simp only [applyVC]
    rw [contains_eq_false_of_not_mem hm]
    simp

/-- Witness for C10: pool with only column `x`, condition grouping on
`member_id`. -/
theorem missing_grouping_column_disables_witness :
    (extract_self_comparisons "member_id = member_id" ≠ [] ∧
      "member_id" ∈ extract_self_comparisons "member_id = member_id" ∧
      "member_id" ∉ (⟨["x"], [[("x", Value.num 1)]]⟩ : DF).cols) ∧
      (apply_dataset_level_rule ⟨["x"], [[("x", Value.num 1)]]⟩ 1 "d"
          "member_id = member_id" = DF.emptyDF ∧
        ∀ (df2 : DF) (op : String) (lit : Lit), "member_id" ∉ df2.cols →
          applyVC df2 ("member_id", op, lit) = .ok df2) :=
  ⟨⟨by decide, by decide, by decide⟩,
    missing_grouping_column_disables ⟨["x"], [[("x", Value.num 1)]]⟩ 1 "d"
      "member_id = member_id" "member_id" (by decide) (by decide) (by decide)⟩

/-! ## C4 amended theorem -/

/-- C4 (amended): any failure of the query — a condition that does not
compile, a reference to a missing column, a type-mismatched ordering
comparison — is caught at the rule boundary: the record-level rule
yields the empty set and the sequential loop simply continues with the
next rule against the unchanged pool. -/
theorem failing_query_rule_empty (pool : DF) (id : Nat) (desc cond : String)
    (h : dfQueryE pool (parse_condition_for_record_rule cond) = .error ()) :
    apply_record_level_rule pool id desc cond = DF.emptyDF ∧
      ∀ (rest : List Rule) (rid : Nat) (rdesc : String), pool.rows ≠ [] →
        applyRulesAux (⟨rid, rdesc, "Record", cond⟩ :: rest) pool =
          applyRulesAux rest pool := by
  have h1 : ∀ (i : Nat) (d : String), apply_record_level_rule pool i d cond = DF.emptyDF := by
    intro i d
    simp only [apply_record_level_rule, h]
  refine ⟨h1 id desc, ?_⟩
  intro rest rid rdesc hne
  have hie : pool.rows.isEmpty = false := by
    cases hp : pool.rows with
    | nil => exact absurd hp hne
    | cons a l => rfl
  simp only [applyRulesAux, hie, Bool.false_eq_true, if_false, applyRule]
  simp [h1]
  intro hh
  exact absurd rfl hh

/-- Witness for C4's amended theorem: the missing-column condition on the
one-row pool. -/
theorem failing_query_rule_empty_witness :
    dfQueryE missingColClaims (parse_condition_for_record_rule "a > 5 or b > 0") =
        .error () ∧
      (apply_record_level_rule missingColClaims 1 "d" "a > 5 or b > 0" = DF.emptyDF ∧
        ∀ (rest : List Rule) (rid : Nat) (rdesc : String), missingColClaims.rows ≠ [] →
          applyRulesAux (⟨rid, rdesc, "Record", "a > 5 or b > 0"⟩ :: rest) missingColClaims =
            applyRulesAux rest missingColClaims) :=
  ⟨by rfl, failing_query_rule_empty missingColClaims 1 "d" "a > 5 or b > 0" (by rfl)⟩

/-! ## C1 amended theorem: first-rule-wins exclusivity for claims tables
whose schema does not already contain the tag columns -/

theorem tagDF_spec (df : DF) (id : Nat) (desc : String)
    (h1 : "rule_id" ∉ df.cols) (h2 : "rule_desc" ∉ df.cols) :
    (tagDF df id desc).cols = df.cols ++ ["rule_id", "rule_desc"] ∧
      ∀ r ∈ (tagDF df id desc).rows, ∃ p ∈ df.rows,
        r = p ++ [("rule_id", Value.num (id : Rat))] ++ [("rule_desc", Value.str desc)] := by
  have hc1 : df.cols.contains "rule_id" = false := contains_eq_false_of_not_mem h1
  have h2b : "rule_desc" ∉ df.cols ++ ["rule_id"] := by
    intro hm
    rcases List.mem_append.mp hm with h | h
    · exact h2 h
    · simp at h
  simp only [tagDF, DF.assign, hc1, Bool.false_eq_true, if_false]
  rw [contains_eq_false_of_not_mem h2b]
  simp only [Bool.false_eq_true, if_false]
  constructor
  · simp [List.append_assoc]
  · intro r hr
    simp only [List.map_map, List.mem_map] at hr
    obtain ⟨p, hp, he⟩ := hr
    exact ⟨p, hp, he.symm⟩

theorem dfQueryE_ok {df df' : DF} {q : String} (h : dfQueryE df q = .ok df') :
    df'.cols = df.cols ∧ ∀ r ∈ df'.rows, r ∈ df.rows := by
  simp only [dfQueryE] at h
  cases hp : parseQuery q with
  | error e => rw [hp, exceptBind_err] at h; cases h
  | ok e =>
    rw [hp, exceptBind_ok] at h
    cases hf : filterE (fun r => evalQ df.cols r e) df.rows with
    | error e2 => rw [hf, exceptBind_err] at h; cases h
    | ok rs =>
      rw [hf, exceptBind_ok, exceptPure] at h
      cases h
      exact ⟨rfl, fun r hr => filterE_ok_sub hf r hr⟩

theorem groupsOf_sub {selfs : List String} {rows : List Row} {g : List Row}
    (h : g ∈ groupsOf selfs rows) : ∀ r ∈ g, r ∈ rows := by
  simp only [groupsOf, List.mem_map] at h
  obtain ⟨k, _, he⟩ := h
  intro r hr
  rw [← he] at hr
  exact (List.mem_filter.mp hr).1

theorem flatPairs_sub {selfs : List String} {diffs : List (String × String × String × Rat)}
    {pm : List Row} :
    ∀ r ∈ (groupsOf selfs pm).flatMap (fun g => (listPairs g).flatMap (fun p =>
        if differencesMet diffs p.1 p.2 then [p.1, p.2] else [])), r ∈ pm := by
  intro r hr
  simp only [List.mem_flatMap] at hr
  obtain ⟨g, hg, hr2⟩ := hr
  obtain ⟨p, hp, hr3⟩ := hr2
  have hmem := listPairs_mem hp
  by_cases hd : differencesMet diffs p.1 p.2
  · simp [hd] at hr3
    rcases hr3 with h | h
    · exact groupsOf_sub hg _ (h ▸ hmem.1)
    · exact groupsOf_sub hg _ (h ▸ hmem.2)
  · simp [hd] at hr3

theorem dupRows_sub {selfs : List String} {rows : List Row} :
    ∀ r ∈ dupRows selfs rows, r ∈ rows := by
  intro r hr
  exact (List.mem_filter.mp hr).1

theorem applyRule_record {pool : DF} {rule : Rule} (h : rule.Level = "Record") :
    applyRule pool rule =
      apply_record_level_rule pool rule.Rule_ID rule.Rule_Desc rule.Rule_Allegation := by
  simp [applyRule, h]

theorem applyRule_dataset {pool : DF} {rule : Rule} (h : rule.Level = "DataSet") :
    applyRule pool rule =
      apply_dataset_level_rule pool rule.Rule_ID rule.Rule_Desc rule.Rule_Allegation := by
  simp [applyRule, h]

theorem applyRule_other {pool : DF} {rule : Rule}
    (h1 : rule.Level ≠ "Record") (h2 : rule.Level ≠ "DataSet") :
    applyRule pool rule = DF.emptyDF := by
  simp [applyRule, h1, h2]

/-- A non-empty record-level match set carries the pool's columns plus
the two tag columns, and each of its rows agrees with some pool row on
every pool column. -/
theorem record_resOk {pool : DF} {id : Nat} {desc cond : String}
    (h1 : "rule_id" ∉ pool.cols) (h2 : "rule_desc" ∉ pool.cols)
    (hC : ∀ c ∈ pool.cols, c ≠ "rule_id" ∧ c ≠ "rule_desc")
    (hne : (apply_record_level_rule pool id desc cond).rows ≠ []) :
    (apply_record_level_rule pool id desc cond).cols = pool.cols ++ ["rule_id", "rule_desc"] ∧
      ∀ r ∈ (apply_record_level_rule pool id desc cond).rows, ∃ p ∈ pool.rows,
        rowVals pool.cols r = rowVals pool.cols p := by
  cases hq : dfQueryE pool (parse_condition_for_record_rule cond) with
  | error e =>
    simp only [apply_record_level_rule, hq] at hne
    exact absurd rfl hne
  | ok qres =>
    simp only [apply_record_level_rule, hq] at hne ⊢
    obtain ⟨hqc, hqr⟩ := dfQueryE_ok hq
    cases hqe : qres.rows.isEmpty with
    | true =>
      simp only [hqe, if_true] at hne
      exact absurd rfl hne
    | false =>
      simp only [hqe, Bool.false_eq_true, if_false] at hne ⊢
      have h1q : "rule_id" ∉ qres.cols := hqc ▸ h1
      have h2q : "rule_desc" ∉ qres.cols := hqc ▸ h2
      obtain ⟨htc, htr⟩ := tagDF_spec qres id desc h1q h2q
      refine ⟨htc.trans (by rw [hqc]), ?_⟩
      intro r hr
      obtain ⟨p, hp, he⟩ := htr r hr
      refine ⟨p, hqr p hp, ?_⟩
      rw [he]
      exact rowVals_append_tags hC p _ _

/-- The dataset-level analogue of `record_resOk`. -/
theorem dataset_resOk {pool : DF} {id : Nat} {desc cond : String}
    (h1 : "rule_id" ∉ pool.cols) (h2 : "rule_desc" ∉ pool.cols)
    (hC : ∀ c ∈ pool.cols, c ≠ "rule_id" ∧ c ≠ "rule_desc")
    (hne : (apply_dataset_level_rule pool id desc cond).rows ≠ []) :
    (apply_dataset_level_rule pool id desc cond).cols = pool.cols ++ ["rule_id", "rule_desc"] ∧
      ∀ r ∈ (apply_dataset_level_rule pool id desc cond).rows, ∃ p ∈ pool.rows,
        rowVals pool.cols r = rowVals pool.cols p := by
  cases hpre : prefilterDF pool (extract_value_comparisons cond) with
  | error e =>
    simp only [apply_dataset_level_rule, hpre] at hne
    exact absurd rfl hne
  | ok filtered =>
    simp only [apply_dataset_level_rule, hpre] at hne ⊢
    obtain ⟨hfc, hfr⟩ := prefilterDF_ok hpre
    have h1f : "rule_id" ∉ filtered.cols := hfc ▸ h1
    have h2f : "rule_desc" ∉ filtered.cols := hfc ▸ h2
    cases hfe : filtered.rows.isEmpty with
    | true =>
      simp only [hfe, if_true] at hne
      exact absurd rfl hne
    | false =>
      simp only [hfe, Bool.false_eq_true, if_false] at hne ⊢
      cases hse : (extract_self_comparisons cond).isEmpty with
      | true =>
        simp only [hse, Bool.not_true, Bool.false_eq_true, if_false] at hne
        exact absurd rfl hne
      | false =>
        simp only [hse, Bool.not_false, if_true] at hne ⊢
        cases hall : (extract_self_comparisons cond).all (fun f => filtered.cols.contains f) with
        | false =>
          simp only [hall, Bool.false_eq_true, if_false] at hne
          exact absurd rfl hne
        | true =>
          simp only [hall, if_true] at hne ⊢
          have hsubpm : ∀ r ∈ dupRows (extract_self_comparisons cond) filtered.rows,
              r ∈ pool.rows :=
            fun r hr => hfr r (dupRows_sub r hr)
          cases hpm : (dupRows (extract_self_comparisons cond) filtered.rows).isEmpty with
          | true =>
            simp only [hpm, if_true] at hne
            exact absurd rfl hne
          | false =>
            simp only [hpm, Bool.false_eq_true, if_false] at hne ⊢
            cases hdif : (extract_field_differences cond).isEmpty with
            | true =>
              simp only [hdif, Bool.not_true, Bool.false_eq_true, if_false] at hne ⊢
              obtain ⟨htc, htr⟩ := tagDF_spec
                ⟨filtered.cols, dupRows (extract_self_comparisons cond) filtered.rows⟩
                id desc h1f h2f
              refine ⟨htc.trans (by rw [hfc]), ?_⟩
              intro r hr
              obtain ⟨p, hp, he⟩ := htr r hr
              refine ⟨p, hsubpm p hp, ?_⟩
              rw [he]
              exact rowVals_append_tags hC p _ _
            | false =>
              simp only [hdif, Bool.not_false, if_true] at hne ⊢
              cases hres : ((groupsOf (extract_self_comparisons cond)
                  (dupRows (extract_self_comparisons cond) filtered.rows)).flatMap
                    (fun g => (listPairs g).flatMap (fun p =>
                      if differencesMet (extract_field_differences cond) p.1 p.2
                      then [p.1, p.2] else []))).isEmpty with
              | true =>
                simp only [hres, if_true] at hne
                exact absurd rfl hne
              | false =>
                simp only [hres, Bool.false_eq_true, if_false] at hne ⊢
                obtain ⟨htc, htr⟩ := tagDF_spec
                  ⟨filtered.cols, dedupGo []
                    ((groupsOf (extract_self_comparisons cond)
                      (dupRows (extract_self_comparisons cond) filtered.rows)).flatMap
                        (fun g => (listPairs g).flatMap (fun p =>
                          if differencesMet (extract_field_differences cond) p.1 p.2
                          then [p.1, p.2] else [])))⟩
                  id desc h1f h2f
                refine ⟨htc.trans (by rw [hfc]), ?_⟩
                intro r hr
                obtain ⟨p, hp, he⟩ := htr r hr
                have hp2 := dedupGo_sub _ _ p hp
                have hp3 := flatPairs_sub p hp2
                refine ⟨p, hsubpm p hp3, ?_⟩
                rw [he]
                exact rowVals_append_tags hC p _ _

/-- Both evaluators, through the `applyRule` dispatch. -/
theorem applyRule_resOk {pool : DF} {rule : Rule}
    (h1 : "rule_id" ∉ pool.cols) (h2 : "rule_desc" ∉ pool.cols)
    (hC : ∀ c ∈ pool.cols, c ≠ "rule_id" ∧ c ≠ "rule_desc")
    (hne : (applyRule pool rule).rows ≠ []) :
    (applyRule pool rule).cols = pool.cols ++ ["rule_id", "rule_desc"] ∧
      ∀ r ∈ (applyRule pool rule).rows, ∃ p ∈ pool.rows,
        rowVals pool.cols r = rowVals pool.cols p := by
  by_cases hrec : rule.Level = "Record"
  · rw [applyRule_record hrec] at hne ⊢
    exact record_resOk h1 h2 hC hne
  · by_cases hds : rule.Level = "DataSet"
    · rw [applyRule_dataset hds] at hne ⊢
      exact dataset_resOk h1 h2 hC hne
    · rw [applyRule_other hrec hds] at hne
      exact absurd rfl hne

theorem keyCols_eq {C : List String} (h1 : "rule_id" ∉ C) (h2 : "rule_desc" ∉ C) :
    (C ++ ["rule_id", "rule_desc"]).filter
      (fun c => c ≠ "rule_id" && c ≠ "rule_desc") = C := by
  rw [List.filter_append]
  have hfC : C.filter (fun c => c ≠ "rule_id" && c ≠ "rule_desc") = C := by
    apply List.filter_eq_self.mpr
    intro c hc
    have hc1 : c ≠ "rule_id" := fun e => h1 (e ▸ hc)
    have hc2 : c ≠ "rule_desc" := fun e => h2 (e ▸ hc)
    simp [hc1, hc2]
  have hft : (["rule_id", "rule_desc"] : List String).filter
      (fun c => c ≠ "rule_id" && c ≠ "rule_desc") = [] := rfl
  rw [hfC, hft, List.append_nil]

theorem removeMatched_kept {pool res : DF}
    (hkc : res.cols.filter (fun c => c ≠ "rule_id" && c ≠ "rule_desc") = pool.cols) :
    ∀ r ∈ (removeMatched pool res).rows,
      r ∈ pool.rows ∧ ∀ m ∈ res.rows, rowVals pool.cols m ≠ rowVals pool.cols r := by
  intro r hr
  simp only [removeMatched, hkc] at hr
  obtain ⟨hmem, hcond⟩ := List.mem_filter.mp hr
  refine ⟨hmem, ?_⟩
  intro m hm heq
  have hany : res.rows.any
      (fun m => decide (rowVals pool.cols m = rowVals pool.cols r)) = false := by
    cases hb : res.rows.any (fun m => decide (rowVals pool.cols m = rowVals pool.cols r)) with
    | false => rfl
    | true => rw [hb] at hcond; cases hcond
  have := List.any_eq_false.mp hany m hm
  rw [decide_eq_true heq] at this
  exact this rfl

theorem applyRulesAux_spec (C : List String)
    (h1 : "rule_id" ∉ C) (h2 : "rule_desc" ∉ C) :
    ∀ (rules : List Rule) (pool : DF), pool.cols = C →
      (applyRulesAux rules pool).Pairwise
        (fun d1 d2 => ∀ r1 ∈ d1.rows, ∀ r2 ∈ d2.rows,
          rowVals C r1 ≠ rowVals C r2) ∧
      ∀ d ∈ applyRulesAux rules pool, ∀ r ∈ d.rows,
        ∃ p ∈ pool.rows, rowVals C r = rowVals C p := by
  intro rules
  induction rules with
  | nil =>
    intro pool hp
    exact ⟨List.Pairwise.nil, by simp [applyRulesAux]⟩
  | cons rule rest ih =>
    intro pool hp
    simp only [applyRulesAux]
    cases hie : pool.rows.isEmpty with
    | true =>
      simp only [if_true]
      exact ⟨List.Pairwise.nil, by simp⟩
    | false =>
      simp only [Bool.false_eq_true, if_false]
      by_cases hres : (applyRule pool rule).rows.isEmpty
      · rw [if_pos hres]
        exact ih pool hp
      · rw [if_neg hres]
        have hCp : ∀ c ∈ pool.cols, c ≠ "rule_id" ∧ c ≠ "rule_desc" := by
          rw [hp]
          intro c hc
          exact ⟨fun e => h1 (e ▸ hc), fun e => h2 (e ▸ hc)⟩
        have hne : (applyRule pool rule).rows ≠ [] := by
          intro he
          rw [he] at hres
          exact hres rfl
        obtain ⟨hrc, hrv⟩ := applyRule_resOk (hp ▸ h1) (hp ▸ h2) hCp hne
        have hkc : (applyRule pool rule).cols.filter
            (fun c => c ≠ "rule_id" && c ≠ "rule_desc") = pool.cols := by
          rw [hrc, hp]
          exact keyCols_eq h1 h2
        have hkept := removeMatched_kept hkc
        have hpc : (removeMatched pool (applyRule pool rule)).cols = C := by
          simp [removeMatched, hp]
        obtain ⟨ihP, ihC⟩ := ih (removeMatched pool (applyRule pool rule)) hpc
        constructor
        · refine List.Pairwise.cons ?_ ihP
          intro d hd r1 hr1 r2 hr2
          obtain ⟨p2, hp2, hv2⟩ := ihC d hd r2 hr2
          obtain ⟨hp2pool, hp2disj⟩ := hkept p2 hp2
          intro heq
          rw [hp] at hp2disj
          exact hp2disj r1 hr1 (heq.trans hv2)
        · intro d hd r hr
          rcases List.mem_cons.mp hd with rfl | hd2
          · obtain ⟨p, hppool, hv⟩ := hrv r hr
            exact ⟨p, hppool, by rw [← hp]; exact hv⟩
          · obtain ⟨p2, hp2, hv2⟩ := ihC d hd2 r hr
            exact ⟨p2, (hkept p2 hp2).1, hv2⟩

/-- C1 (amended): provided the claims table's own schema does not contain
the tag columns `rule_id`/`rule_desc`, the non-empty per-rule match sets
produced by the sequential loop are pairwise disjoint on the claims
columns — every claim row is attributed to at most one rule, because a
matched claim is removed from the pool before any later rule runs. -/
theorem rule_attribution_exclusive (rules : List Rule) (claims : DF)
    (h1 : "rule_id" ∉ claims.cols) (h2 : "rule_desc" ∉ claims.cols) :
    (applyRulesAux (sortRules rules) claims).Pairwise
      (fun d1 d2 => ∀ r1 ∈ d1.rows, ∀ r2 ∈ d2.rows,
        rowVals claims.cols r1 ≠ rowVals claims.cols r2) :=
  (applyRulesAux_spec claims.cols h1 h2 (sortRules rules) claims rfl).1

/-- Witness for C1's amended theorem on a two-row claims table without
tag columns. -/
theorem rule_attribution_exclusive_witness :
    ("rule_id" ∉ (⟨["claim_id"], [[("claim_id", Value.num 1)], [("claim_id", Value.num 2)]]⟩ : DF).cols ∧
      "rule_desc" ∉ (⟨["claim_id"], [[("claim_id", Value.num 1)], [("claim_id", Value.num 2)]]⟩ : DF).cols) ∧
      (applyRulesAux (sortRules clashRules)
          ⟨["claim_id"], [[("claim_id", Value.num 1)], [("claim_id", Value.num 2)]]⟩).Pairwise
        (fun d1 d2 => ∀ r1 ∈ d1.rows, ∀ r2 ∈ d2.rows,
          rowVals (⟨["claim_id"], [[("claim_id", Value.num 1)], [("claim_id", Value.num 2)]]⟩ : DF).cols r1 ≠
            rowVals (⟨["claim_id"], [[("claim_id", Value.num 1)], [("claim_id", Value.num 2)]]⟩ : DF).cols r2) :=
  ⟨⟨by decide, by decide⟩,
    rule_attribution_exclusive clashRules
      ⟨["claim_id"], [[("claim_id", Value.num 1)], [("claim_id", Value.num 2)]]⟩
      (by decide) (by decide)⟩

/-! ## C1 counterexample -/

/-- C1 counterexample: when the claims table already has a `rule_id`
column, the removal key (the result's columns minus the tag columns) no
longer matches the remaining-claims key (all pool columns), nothing is
removed, and the single claim row is matched by rule 1 and again by
rule 2 — it appears in the output of two rules. -/
theorem claim_attributed_to_two_rules :
    applyRulesAux (sortRules clashRules) clashClaims =
      [⟨["claim_id", "rule_id", "rule_desc"],
        [[("claim_id", .num 1), ("rule_id", .num 1), ("rule_desc", .str "r1")]]⟩,
       ⟨["claim_id", "rule_id", "rule_desc"],
        [[("claim_id", .num 1), ("rule_id", .num 2), ("rule_desc", .str "r2")]]⟩] := by
  decide

/-! ## Scanning lemmas: behavior of the regex scanners on structured
condition strings -/

theorem takeWhile_eq_nil_of_head {p : Char → Bool} {R : List Char}
    (h : ∀ y ys, R = y :: ys → p y = false) : R.takeWhile p = [] := by
  cases R with
  | nil => rfl
  | cons y ys => simp [List.takeWhile, h y ys rfl]

theorem dropWhile_eq_self_of_head {p : Char → Bool} {R : List Char}
    (h : ∀ y ys, R = y :: ys → p y = false) : R.dropWhile p = R := by
  cases R with
  | nil => rfl
  | cons y ys => simp [List.dropWhile, h y ys rfl]

theorem takeWhile_app_all {p : Char → Bool} :
    ∀ {xs : List Char} (ys : List Char), (∀ c ∈ xs, p c = true) →
      (xs ++ ys).takeWhile p = xs ++ ys.takeWhile p := by
  intro xs
  induction xs with
  | nil => intro ys _; rfl
  | cons x xs ih =>
    intro ys h
    have hx : p x = true := h x (by simp)
    simp only [List.cons_append, List.takeWhile, hx, List.append_eq]
    rw [ih ys (fun c hc => h c (by simp [hc]))]

theorem dropWhile_app_all {p : Char → Bool} :
    ∀ {xs : List Char} (ys : List Char), (∀ c ∈ xs, p c = true) →
      (xs ++ ys).dropWhile p = ys.dropWhile p := by
  intro xs
  induction xs with
  | nil => intro ys _; rfl
  | cons x xs ih =>
    intro ys h
    have hx : p x = true := h x (by simp)
    simp only [List.cons_append, List.dropWhile, hx, List.append_eq]
    exact ih ys (fun c hc => h c (by simp [hc]))

theorem takeWhile_all {p : Char → Bool} {xs : List Char} (h : ∀ c ∈ xs, p c = true) :
    xs.takeWhile p = xs := by
  have := takeWhile_app_all (p := p) [] h
  simpa using this

theorem dropWhile_all {p : Char → Bool} {xs : List Char} (h : ∀ c ∈ xs, p c = true) :
    xs.dropWhile p = [] := by
  have := dropWhile_app_all (p := p) [] h
  simpa using this

theorem word_not_space {c : Char} (h : isWordChar c = true) : isSpaceChar c = false := by
  cases hs : isSpaceChar c with
  | false => rfl
  | true =>
    simp only [isSpaceChar, Bool.or_eq_true, decide_eq_true_eq] at hs
    rcases hs with ((((e | e) | e) | e) | e) | e <;> subst e <;> cases h

theorem digit_not_space {c : Char} (h : isDigitChar c = true) : isSpaceChar c = false := by
  cases hs : isSpaceChar c with
  | false => rfl
  | true =>
    simp only [isSpaceChar, Bool.or_eq_true, decide_eq_true_eq] at hs
    rcases hs with ((((e | e) | e) | e) | e) | e <;> subst e <;> cases h

theorem op_of_mem {c : Char} (h : isOpChar c = true) :
    c = '<' ∨ c = '>' ∨ c = '=' ∨ c = '!' := by
  simp only [isOpChar, Bool.or_eq_true, decide_eq_true_eq] at h
  tauto

theorem op_not_word {c : Char} (h : isOpChar c = true) : isWordChar c = false := by
  rcases op_of_mem h with e | e | e | e <;> subst e <;> rfl

theorem op_not_space {c : Char} (h : isOpChar c = true) : isSpaceChar c = false := by
  rcases op_of_mem h with e | e | e | e <;> subst e <;> rfl

theorem word_not_op {c : Char} (h : isWordChar c = true) : isOpChar c = false := by
  cases ho : isOpChar c with
  | false => rfl
  | true => rw [op_not_word ho] at h; cases h

theorem digit_is_word {c : Char} (h : isDigitChar c = true) : isWordChar c = true := by
  simp only [isDigitChar] at h
  simp [isWordChar, Char.isAlphanum, h]

theorem digit_not_quote {c : Char} (h : isDigitChar c = true) : (c = '"') = False := by
  simp only [eq_iff_iff, iff_false]
  intro e
  subst e
  cases h

theorem numGo_nil : ∀ fuel, numGo fuel [] = [] := by
  intro fuel; cases fuel <;> rfl

theorem strGo_nil : ∀ fuel, strGo fuel [] = [] := by
  intro fuel; cases fuel <;> rfl

theorem diffGo_nil : ∀ fuel, diffGo fuel [] = [] := by
  intro fuel; cases fuel <;> rfl

theorem selfGo_nil : ∀ fuel, selfGo fuel [] = [] := by
  intro fuel; cases fuel <;> rfl

theorem numGo_skip_nonword {c : Char} {rest : List Char} {fuel : Nat}
    (h : isWordChar c = false) : numGo (fuel + 1) (c :: rest) = numGo fuel rest := by
  simp [numGo, h]

theorem strGo_skip_nonword {c : Char} {rest : List Char} {fuel : Nat}
    (h : isWordChar c = false) : strGo (fuel + 1) (c :: rest) = strGo fuel rest := by
  simp [strGo, h]

theorem selfGo_skip_nonword {c : Char} {rest : List Char} {fuel : Nat}
    (h : isWordChar c = false) : selfGo (fuel + 1) (c :: rest) = selfGo fuel rest := by
  simp [selfGo, h]

theorem numGo_skip_nonwords {X : List Char} :
    ∀ (xs : List Char) (fuel : Nat), (∀ c ∈ xs, isWordChar c = false) →
      numGo (fuel + xs.length) (xs ++ X) = numGo fuel X := by
  intro xs
  induction xs with
  | nil => intro fuel _; rfl
  | cons x xs ih =>
    intro fuel h
    have : fuel + (x :: xs).length = (fuel + xs.length) + 1 := by
      simp [List.length_cons]; omega
    rw [this, List.cons_append, numGo_skip_nonword (h x (by simp))]
    exact ih fuel (fun c hc => h c (by simp [hc]))

theorem strGo_skip_nonwords {X : List Char} :
    ∀ (xs : List Char) (fuel : Nat), (∀ c ∈ xs, isWordChar c = false) →
      strGo (fuel + xs.length) (xs ++ X) = strGo fuel X := by
  intro xs
  induction xs with
  | nil => intro fuel _; rfl
  | cons x xs ih =>
    intro fuel h
    have : fuel + (x :: xs).length = (fuel + xs.length) + 1 := by
      simp [List.length_cons]; omega
    rw [this, List.cons_append, strGo_skip_nonword (h x (by simp))]
    exact ih fuel (fun c hc => h c (by simp [hc]))

theorem selfGo_skip_nonwords {X : List Char} :
    ∀ (xs : List Char) (fuel : Nat), (∀ c ∈ xs, isWordChar c = false) →
      selfGo (fuel + xs.length) (xs ++ X) = selfGo fuel X := by
  intro xs
  induction xs with
  | nil => intro fuel _; rfl
  | cons x xs ih =>
    intro fuel h
    have : fuel + (x :: xs).length = (fuel + xs.length) + 1 := by
      simp [List.length_cons]; omega
    rw [this, List.cons_append, selfGo_skip_nonword (h x (by simp))]
    exact ih fuel (fun c hc => h c (by simp [hc]))

/-! Scanning a word run that is followed by `" - ..."`: every start
position inside the run fails the numeric/string value-comparison pattern
(no operator characters after the spaces), so the scan just advances
through it. -/

theorem numGo_skip_f1 {rest2 : List Char} :
    ∀ (w : List Char) (fuel : Nat), (∀ c ∈ w, isWordChar c = true) →
      numGo (fuel + w.length) (w ++ (' ' :: '-' :: rest2)) =
        numGo fuel (' ' :: '-' :: rest2) := by
  intro w
  induction w with
  | nil => intro fuel _; rfl
  | cons c w' ih =>
    intro fuel h
    have hc : isWordChar c = true := h c (by simp)
    have hw' : ∀ x ∈ w', isWordChar x = true := fun x hx => h x (by simp [hx])
    have harith : fuel + (c :: w').length = (fuel + w'.length) + 1 := by
      simp [List.length_cons]; omega
    rw [harith, List.cons_append]
    have e1 : List.takeWhile isWordChar (c :: (w' ++ (' ' :: '-' :: rest2))) = c :: w' := by
      rw [← List.cons_append]
      rw [takeWhile_app_all _ (by intro x hx; rcases List.mem_cons.mp hx with e | e
                                  · exact e ▸ hc
                                  · exact hw' x e)]
      rw [takeWhile_eq_nil_of_head (by intro y ys he; cases he; rfl)]
      simp
    have e2 : List.dropWhile isWordChar (c :: (w' ++ (' ' :: '-' :: rest2))) =
        ' ' :: '-' :: rest2 := by
      rw [← List.cons_append]
      rw [dropWhile_app_all _ (by intro x hx; rcases List.mem_cons.mp hx with e | e
                                  · exact e ▸ hc
                                  · exact hw' x e)]
      exact dropWhile_eq_self_of_head (by intro y ys he; cases he; rfl)
    have e3 : List.dropWhile isSpaceChar (' ' :: '-' :: rest2) = '-' :: rest2 := by
      show List.dropWhile isSpaceChar (' ' :: '-' :: rest2) = '-' :: rest2
      rw [List.dropWhile]
      simp only [show isSpaceChar ' ' = true from rfl]
      exact dropWhile_eq_self_of_head (by intro y ys he; cases he; rfl)
    have e4 : List.takeWhile isOpChar ('-' :: rest2) = [] :=
      takeWhile_eq_nil_of_head (by intro y ys he; cases he; rfl)
    simp only [numGo, hc, if_true, e1, e2, e3, e4, List.isEmpty_nil, if_true]
    exact ih fuel hw'

theorem strGo_skip_f1 {rest2 : List Char} :
    ∀ (w : List Char) (fuel : Nat), (∀ c ∈ w, isWordChar c = true) →
      strGo (fuel + w.length) (w ++ (' ' :: '-' :: rest2)) =
        strGo fuel (' ' :: '-' :: rest2) := by
  intro w
  induction w with
  | nil => intro fuel _; rfl
  | cons c w' ih =>
    intro fuel h
    have hc : isWordChar c = true := h c (by simp)
    have hw' : ∀ x ∈ w', isWordChar x = true := fun x hx => h x (by simp [hx])
    have harith : fuel + (c :: w').length = (fuel + w'.length) + 1 := by
      simp [List.length_cons]; omega
    rw [harith, List.cons_append]
    have e1 : List.takeWhile isWordChar (c :: (w' ++ (' ' :: '-' :: rest2))) = c :: w' := by
      rw [← List.cons_append]
      rw [takeWhile_app_all _ (by intro x hx; rcases List.mem_cons.mp hx with e | e
                                  · exact e ▸ hc
                                  · exact hw' x e)]
      rw [takeWhile_eq_nil_of_head (by intro y ys he; cases he; rfl)]
      simp
    have e2 : List.dropWhile isWordChar (c :: (w' ++ (' ' :: '-' :: rest2))) =
        ' ' :: '-' :: rest2 := by
      rw [← List.cons_append]
      rw [dropWhile_app_all _ (by intro x hx; rcases List.mem_cons.mp hx with e | e
                                  · exact e ▸ hc
                                  · exact hw' x e)]
      exact dropWhile_eq_self_of_head (by intro y ys he; cases he; rfl)
    have e3 : List.dropWhile isSpaceChar (' ' :: '-' :: rest2) = '-' :: rest2 := by
      rw [List.dropWhile]
      simp only [show isSpaceChar ' ' = true from rfl]
      exact dropWhile_eq_self_of_head (by intro y ys he; cases he; rfl)
    have e4 : List.takeWhile isOpChar ('-' :: rest2) = [] :=
      takeWhile_eq_nil_of_head (by intro y ys he; cases he; rfl)
    simp only [strGo, hc, if_true, e1, e2, e3, e4, List.isEmpty_nil, if_true]
    exact ih fuel hw'

/-- The numeric value-comparison scan fires at the second field of a
field-difference pattern: `f2 op k` at the end of the string. -/
theorem numGo_hit {F2 OP K : List Char}
    (hF2 : F2 ≠ []) (hF2w : ∀ c ∈ F2, isWordChar c = true)
    (hOP : OP ≠ []) (hOPo : ∀ c ∈ OP, isOpChar c = true)
    (hK : K ≠ []) (hKd : ∀ c ∈ K, isDigitChar c = true) :
    ∀ fuel, numGo (fuel + 1) (F2 ++ (' ' :: (OP ++ (' ' :: K)))) =
      [((⟨F2⟩ : String), (⟨OP⟩ : String), ratOfDigits K [])] := by
  intro fuel
  cases F2 with
  | nil => exact absurd rfl hF2
  | cons c F2' =>
    have hc : isWordChar c = true := hF2w c (by simp)
    have hOPns : ∀ y ys, (OP ++ (' ' :: K)) = y :: ys → isSpaceChar y = false := by
      intro y ys he
      have hy : y ∈ OP := by
        cases OP with
        | nil => exact absurd rfl hOP
        | cons o OP2 =>
          simp only [List.cons_append, List.cons.injEq] at he
          rw [← he.1]
          simp
      exact op_not_space (hOPo y hy)
    have hKns : ∀ y ys, K = y :: ys → isSpaceChar y = false := by
      intro y ys he
      exact digit_not_space (hKd y (by rw [he]; simp))
    have e1 : List.takeWhile isWordChar (c :: (F2' ++ (' ' :: (OP ++ (' ' :: K))))) =
        c :: F2' := by
      rw [← List.cons_append]
      rw [takeWhile_app_all _ (by intro x hx; exact hF2w x hx)]
      rw [takeWhile_eq_nil_of_head (by intro y ys he; cases he; rfl)]
      simp
    have e2 : List.dropWhile isWordChar (c :: (F2' ++ (' ' :: (OP ++ (' ' :: K))))) =
        ' ' :: (OP ++ (' ' :: K)) := by
      rw [← List.cons_append]
      rw [dropWhile_app_all _ (by intro x hx; exact hF2w x hx)]
      exact dropWhile_eq_self_of_head (by intro y ys he; cases he; rfl)
    have e3 : List.dropWhile isSpaceChar (' ' :: (OP ++ (' ' :: K))) = OP ++ (' ' :: K) := by
      rw [List.dropWhile]
      simp only [show isSpaceChar ' ' = true from rfl]
      exact dropWhile_eq_self_of_head hOPns
    have e4 : List.takeWhile isOpChar (OP ++ (' ' :: K)) = OP := by
      rw [takeWhile_app_all _ hOPo]
      rw [takeWhile_eq_nil_of_head (by intro y ys he; cases he; rfl)]
      simp
    have e5 : List.dropWhile isOpChar (OP ++ (' ' :: K)) = ' ' :: K := by
      rw [dropWhile_app_all _ hOPo]
      exact dropWhile_eq_self_of_head (by intro y ys he; cases he; rfl)
    have e6 : List.dropWhile isSpaceChar (' ' :: K) = K := by
      rw [List.dropWhile]
      simp only [show isSpaceChar ' ' = true from rfl]
      exact dropWhile_eq_self_of_head hKns
    have e7 : List.takeWhile isDigitChar K = K := takeWhile_all hKd
    have e8 : List.dropWhile isDigitChar K = [] := dropWhile_all hKd
    have hOPemp : OP.isEmpty = false := by
      cases OP with
      | nil => exact absurd rfl hOP
      | cons o OP' => rfl
    have hKemp : K.isEmpty = false := by
      cases K with
      | nil => exact absurd rfl hK
      | cons k K' => rfl
    simp only [List.cons_append, List.append_eq, numGo, hc, if_true, e1, e2, e3, e4, e5,
      e6, e7, e8, hOPemp, hKemp, Bool.false_eq_true, if_false, numGo_nil]

/-- The field-difference scan matches the whole structured condition at
its very first position. -/
theorem diffGo_hit {F1 F2 OP K : List Char}
    (hF1 : F1 ≠ []) (hF1w : ∀ c ∈ F1, isWordChar c = true)
    (hF2 : F2 ≠ []) (hF2w : ∀ c ∈ F2, isWordChar c = true)
    (hOP : OP ≠ []) (hOPo : ∀ c ∈ OP, isOpChar c = true)
    (hK : K ≠ []) (hKd : ∀ c ∈ K, isDigitChar c = true) :
    ∀ fuel, diffGo (fuel + 1) (F1 ++ (' ' :: '-' :: ' ' :: (F2 ++ (' ' :: (OP ++ (' ' :: K)))))) =
      [((⟨F1⟩ : String), (⟨F2⟩ : String), (⟨OP⟩ : String), ratOfDigits K [])] := by
  intro fuel
  cases F1 with
  | nil => exact absurd rfl hF1
  | cons c F1' =>
    have hc : isWordChar c = true := hF1w c (by simp)
    have hF2ns : ∀ y ys, (F2 ++ (' ' :: (OP ++ (' ' :: K)))) = y :: ys →
        isSpaceChar y = false := by
      intro y ys he
      have hy : y ∈ F2 := by
        cases F2 with
        | nil => exact absurd rfl hF2
        | cons f F2x =>
          simp only [List.cons_append, List.cons.injEq] at he
          rw [← he.1]
          simp
      exact word_not_space (hF2w y hy)
    have hOPns : ∀ y ys, (OP ++ (' ' :: K)) = y :: ys → isSpaceChar y = false := by
      intro y ys he
      have hy : y ∈ OP := by
        cases OP with
        | nil => exact absurd rfl hOP
        | cons o OP2 =>
          simp only [List.cons_append, List.cons.injEq] at he
          rw [← he.1]
          simp
      exact op_not_space (hOPo y hy)
    have hKns : ∀ y ys, K = y :: ys → isSpaceChar y = false := by
      intro y ys he
      exact digit_not_space (hKd y (by rw [he]; simp))
    have e1 : List.takeWhile isWordChar
        (c :: (F1' ++ (' ' :: '-' :: ' ' :: (F2 ++ (' ' :: (OP ++ (' ' :: K))))))) =
        c :: F1' := by
      rw [← List.cons_append]
      rw [takeWhile_app_all _ (by intro x hx; exact hF1w x hx)]
      rw [takeWhile_eq_nil_of_head (by intro y ys he; cases he; rfl)]
      simp
    have e2 : List.dropWhile isWordChar
        (c :: (F1' ++ (' ' :: '-' :: ' ' :: (F2 ++ (' ' :: (OP ++ (' ' :: K))))))) =
        ' ' :: '-' :: ' ' :: (F2 ++ (' ' :: (OP ++ (' ' :: K)))) := by
      rw [← List.cons_append]
      rw [dropWhile_app_all _ (by intro x hx; exact hF1w x hx)]
      exact dropWhile_eq_self_of_head (by intro y ys he; cases he; rfl)
    have e3 : List.dropWhile isSpaceChar
        (' ' :: '-' :: ' ' :: (F2 ++ (' ' :: (OP ++ (' ' :: K))))) =
        '-' :: ' ' :: (F2 ++ (' ' :: (OP ++ (' ' :: K)))) := by
      rw [List.dropWhile]
      simp only [show isSpaceChar ' ' = true from rfl]
      exact dropWhile_eq_self_of_head (by intro y ys he; cases he; rfl)
    have e4 : List.dropWhile isSpaceChar (' ' :: (F2 ++ (' ' :: (OP ++ (' ' :: K))))) =
        F2 ++ (' ' :: (OP ++ (' ' :: K))) := by
      rw [List.dropWhile]
      simp only [show isSpaceChar ' ' = true from rfl]
      exact dropWhile_eq_self_of_head hF2ns
    have e5 : List.takeWhile isWordChar (F2 ++ (' ' :: (OP ++ (' ' :: K)))) = F2 := by
      rw [takeWhile_app_all _ hF2w]
      rw [takeWhile_eq_nil_of_head (by intro y ys he; cases he; rfl)]
      simp
    have e6 : List.dropWhile isWordChar (F2 ++ (' ' :: (OP ++ (' ' :: K)))) =
        ' ' :: (OP ++ (' ' :: K)) := by
      rw [dropWhile_app_all _ hF2w]
      exact dropWhile_eq_self_of_head (by intro y ys he; cases he; rfl)
    have e7 : List.dropWhile isSpaceChar (' ' :: (OP ++ (' ' :: K))) = OP ++ (' ' :: K) := by
      rw [List.dropWhile]
      simp only [show isSpaceChar ' ' = true from rfl]
      exact dropWhile_eq_self_of_head hOPns
    have e8 : List.takeWhile isOpChar (OP ++ (' ' :: K)) = OP := by
      rw [takeWhile_app_all _ hOPo]
      rw [takeWhile_eq_nil_of_head (by intro y ys he; cases he; rfl)]
      simp
    have e9 : List.dropWhile isOpChar (OP ++ (' ' :: K)) = ' ' :: K := by
      rw [dropWhile_app_all _ hOPo]
      exact dropWhile_eq_self_of_head (by intro y ys he; cases he; rfl)
    have e10 : List.dropWhile isSpaceChar (' ' :: K) = K := by
      rw [List.dropWhile]
      simp only [show isSpaceChar ' ' = true from rfl]
      exact dropWhile_eq_self_of_head hKns
    have e11 : List.takeWhile isDigitChar K = K := takeWhile_all hKd
    have e12 : List.dropWhile isDigitChar K = [] := dropWhile_all hKd
    have hF2emp : F2.isEmpty = false := by
      cases F2 with
      | nil => exact absurd rfl hF2
      | cons f F2' => rfl
    have hOPemp : OP.isEmpty = false := by
      cases OP with
      | nil => exact absurd rfl hOP
      | cons o OP' => rfl
    have hKemp : K.isEmpty = false := by
      cases K with
      | nil => exact absurd rfl hK
      | cons k K' => rfl
    simp only [List.cons_append, List.append_eq, diffGo, hc, if_true, e1, e2, e3, e4, e5,
      e6, e7, e8, e9, e10, e11, e12, hF2emp, hOPemp, hKemp, Bool.false_eq_true, if_false,
      diffGo_nil]

theorem strGo_skip_spdashsp {X : List Char} (fuel : Nat) :
    strGo (fuel + 3) (' ' :: '-' :: ' ' :: X) = strGo fuel X := by
  have h1 : fuel + 3 = ((fuel + 1) + 1) + 1 := by omega
  rw [h1, strGo_skip_nonword (c := ' ') rfl, strGo_skip_nonword (c := '-') rfl,
    strGo_skip_nonword (c := ' ') rfl]

theorem numGo_skip_spdashsp {X : List Char} (fuel : Nat) :
    numGo (fuel + 3) (' ' :: '-' :: ' ' :: X) = numGo fuel X := by
  have h1 : fuel + 3 = ((fuel + 1) + 1) + 1 := by omega
  rw [h1, numGo_skip_nonword (c := ' ') rfl, numGo_skip_nonword (c := '-') rfl,
    numGo_skip_nonword (c := ' ') rfl]

/-- Start positions inside the second field of a field-difference pattern
fail the string value-comparison pattern: the operator run is found but
the next character is a digit, not a quote. -/
theorem strGo_skip_f2 {OP : List Char} {d : Char} {K' : List Char}
    (hOP : OP ≠ []) (hOPo : ∀ c ∈ OP, isOpChar c = true) (hd : isDigitChar d = true) :
    ∀ (w : List Char) (fuel : Nat), (∀ c ∈ w, isWordChar c = true) →
      strGo (fuel + w.length) (w ++ (' ' :: (OP ++ (' ' :: d :: K')))) =
        strGo fuel (' ' :: (OP ++ (' ' :: d :: K'))) := by
  intro w
  induction w with
  | nil => intro fuel _; rfl
  | cons c w' ih =>
    intro fuel h
    have hc : isWordChar c = true := h c (by simp)
    have hw' : ∀ x ∈ w', isWordChar x = true := fun x hx => h x (by simp [hx])
    have harith : fuel + (c :: w').length = (fuel + w'.length) + 1 := by
      simp [List.length_cons]; omega
    rw [harith, List.cons_append]
    have hOPns : ∀ y ys, (OP ++ (' ' :: d :: K')) = y :: ys → isSpaceChar y = false := by
      intro y ys he
      have hy : y ∈ OP := by
        cases OP with
        | nil => exact absurd rfl hOP
        | cons o OP2 =>
          simp only [List.cons_append, List.cons.injEq] at he
          rw [← he.1]
          simp
      exact op_not_space (hOPo y hy)
    have e1 : List.takeWhile isWordChar (c :: (w' ++ (' ' :: (OP ++ (' ' :: d :: K'))))) =
        c :: w' := by
      rw [← List.cons_append]
      rw [takeWhile_app_all _ (by intro x hx; rcases List.mem_cons.mp hx with e | e
                                  · exact e ▸ hc
                                  · exact hw' x e)]
      rw [takeWhile_eq_nil_of_head (by intro y ys he; cases he; rfl)]
      simp
    have e2 : List.dropWhile isWordChar (c :: (w' ++ (' ' :: (OP ++ (' ' :: d :: K'))))) =
        ' ' :: (OP ++ (' ' :: d :: K')) := by
      rw [← List.cons_append]
      rw [dropWhile_app_all _ (by intro x hx; rcases List.mem_cons.mp hx with e | e
                                  · exact e ▸ hc
                                  · exact hw' x e)]
      exact dropWhile_eq_self_of_head (by intro y ys he; cases he; rfl)
    have e3 : List.dropWhile isSpaceChar (' ' :: (OP ++ (' ' :: d :: K'))) =
        OP ++ (' ' :: d :: K') := by
      rw [List.dropWhile]
      simp only [show isSpaceChar ' ' = true from rfl]
      exact dropWhile_eq_self_of_head hOPns
    have e4 : List.takeWhile isOpChar (OP ++ (' ' :: d :: K')) = OP := by
      rw [takeWhile_app_all _ hOPo]
      rw [takeWhile_eq_nil_of_head (by intro y ys he; cases he; rfl)]
      simp
    have e5 : List.dropWhile isOpChar (OP ++ (' ' :: d :: K')) = ' ' :: d :: K' := by
      rw [dropWhile_app_all _ hOPo]
      exact dropWhile_eq_self_of_head (by intro y ys he; cases he; rfl)
    have e6 : List.dropWhile isSpaceChar (' ' :: d :: K') = d :: K' := by
      rw [List.dropWhile]
      simp only [show isSpaceChar ' ' = true from rfl]
      exact dropWhile_eq_self_of_head
        (by intro y ys he; cases he; exact digit_not_space hd)
    have hOPemp : OP.isEmpty = false := by
      cases OP with
      | nil => exact absurd rfl hOP
      | cons o OP2 => rfl
    simp only [List.cons_append, List.append_eq, strGo, hc, if_true, e1, e2, e3, e4,
      hOPemp, Bool.false_eq_true, if_false, e5, e6]
    split
    · rename_i a3 heq
      injection heq with h1 h2
      rw [h1] at hd
      exact absurd hd (by decide)
    · exact ih fuel hw'

/-- A trailing run of word characters (the digits of the threshold, with
nothing after them) yields no further string value-comparison matches. -/
theorem strGo_words_tail :
    ∀ (w : List Char) (fuel : Nat), (∀ c ∈ w, isWordChar c = true) →
      strGo (fuel + w.length) w = [] := by
  intro w
  induction w with
  | nil => intro fuel _; exact strGo_nil fuel
  | cons c w' ih =>
    intro fuel h
    have hc : isWordChar c = true := h c (by simp)
    have hw' : ∀ x ∈ w', isWordChar x = true := fun x hx => h x (by simp [hx])
    have harith : fuel + (c :: w').length = (fuel + w'.length) + 1 := by
      simp [List.length_cons]; omega
    rw [harith]
    have e1 : List.takeWhile isWordChar (c :: w') = c :: w' := takeWhile_all h
    have e2 : List.dropWhile isWordChar (c :: w') = [] := dropWhile_all h
    simp only [strGo, hc, if_true, e1, e2, List.dropWhile_nil, List.takeWhile_nil,
      List.isEmpty_nil, if_true]
    exact ih fuel hw'

/-- The string value-comparison scan finds nothing in a structured
field-difference condition (there is no quote anywhere). -/
theorem strGo_structured {F1 F2 OP : List Char} {d : Char} {K' : List Char}
    (hF1w : ∀ c ∈ F1, isWordChar c = true)
    (hF2w : ∀ c ∈ F2, isWordChar c = true)
    (hOP : OP ≠ []) (hOPo : ∀ c ∈ OP, isOpChar c = true)
    (hd : isDigitChar d = true) (hK' : ∀ c ∈ K', isDigitChar c = true) :
    ∀ fuel, strGo (fuel + (F1.length + F2.length + OP.length + K'.length + 6))
      (F1 ++ (' ' :: '-' :: ' ' :: (F2 ++ (' ' :: (OP ++ (' ' :: d :: K')))))) = [] := by
  intro fuel
  have a1 : fuel + (F1.length + F2.length + OP.length + K'.length + 6) =
      (fuel + (F2.length + OP.length + K'.length + 6)) + F1.length := by omega
  rw [a1, strGo_skip_f1 F1 _ hF1w]
  have a2 : fuel + (F2.length + OP.length + K'.length + 6) =
      (fuel + (F2.length + OP.length + K'.length + 3)) + 3 := by omega
  rw [a2, strGo_skip_spdashsp]
  have a3 : fuel + (F2.length + OP.length + K'.length + 3) =
      (fuel + (OP.length + K'.length + 3)) + F2.length := by omega
  rw [a3, strGo_skip_f2 hOP hOPo hd F2 _ hF2w]
  have a4 : fuel + (OP.length + K'.length + 3) =
      (fuel + (OP.length + K'.length + 2)) + 1 := by omega
  rw [a4, strGo_skip_nonword (c := ' ') rfl]
  have a5 : fuel + (OP.length + K'.length + 2) =
      (fuel + (K'.length + 2)) + OP.length := by omega
  rw [a5, strGo_skip_nonwords OP _ (fun c hc => op_not_word (hOPo c hc))]
  have a6 : fuel + (K'.length + 2) = (fuel + (K'.length + 1)) + 1 := by omega
  rw [a6, strGo_skip_nonword (c := ' ') rfl]
  exact strGo_words_tail (d :: K') fuel
    (by intro x hx
        rcases List.mem_cons.mp hx with e | e
        · exact e ▸ digit_is_word hd
        · exact digit_is_word (hK' x e))

/-- The numeric value-comparison scan on a structured field-difference
condition produces exactly the leaked comparison `(f2, op, k)`. -/
theorem numGo_structured {F1 F2 OP K : List Char}
    (hF1w : ∀ c ∈ F1, isWordChar c = true)
    (hF2 : F2 ≠ []) (hF2w : ∀ c ∈ F2, isWordChar c = true)
    (hOP : OP ≠ []) (hOPo : ∀ c ∈ OP, isOpChar c = true)
    (hK : K ≠ []) (hKd : ∀ c ∈ K, isDigitChar c = true) :
    ∀ fuel, numGo (fuel + (F1.length + 4))
      (F1 ++ (' ' :: '-' :: ' ' :: (F2 ++ (' ' :: (OP ++ (' ' :: K)))))) =
      [((⟨F2⟩ : String), (⟨OP⟩ : String), ratOfDigits K [])] := by
  intro fuel
  have a1 : fuel + (F1.length + 4) = (fuel + 4) + F1.length := by omega
  rw [a1, numGo_skip_f1 F1 _ hF1w]
  have a2 : fuel + 4 = (fuel + 1) + 3 := by omega
  rw [a2, numGo_skip_spdashsp]
  exact numGo_hit hF2 hF2w hOP hOPo hK hKd fuel

theorem diffGo_structured {F1 F2 OP K : List Char}
    (hF1 : F1 ≠ []) (hF1w : ∀ c ∈ F1, isWordChar c = true)
    (hF2 : F2 ≠ []) (hF2w : ∀ c ∈ F2, isWordChar c = true)
    (hOP : OP ≠ []) (hOPo : ∀ c ∈ OP, isOpChar c = true)
    (hK : K ≠ []) (hKd : ∀ c ∈ K, isDigitChar c = true) :
    ∀ fuel, diffGo (fuel + 1)
      (F1 ++ (' ' :: '-' :: ' ' :: (F2 ++ (' ' :: (OP ++ (' ' :: K)))))) =
      [((⟨F1⟩ : String), (⟨F2⟩ : String), (⟨OP⟩ : String), ratOfDigits K [])] :=
  diffGo_hit hF1 hF1w hF2 hF2w hOP hOPo hK hKd

theorem exceptBindPure {α : Type} : ∀ e : Except Unit α, (e >>= pure) = e := by
  intro e; cases e <;> rfl

/-! ## C8 -/

/-- C8: the field-difference tail leaks into the value prefilter.  For a
condition of the structured form `f1 - f2 op k` (word-character field
names, an operator run, a numeric threshold), the field-difference
extractor returns `(f1, f2, op, k)` and the value-comparison extractor
ALSO returns `(f2, op, k)`, so `apply_dataset_level_rule`'s prefilter
stage (which folds `applyVC` over the extracted value comparisons before
any grouping or pairwise check) amounts to comparing column `f2` against
the number `k`. -/
theorem value_comparison_leak (f1 f2 op k : String)
    (hf1 : f1.data ≠ [] ∧ ∀ c ∈ f1.data, isWordChar c = true)
    (hf2 : f2.data ≠ [] ∧ ∀ c ∈ f2.data, isWordChar c = true)
    (hop : op.data ≠ [] ∧ ∀ c ∈ op.data, isOpChar c = true)
    (hk : k.data ≠ [] ∧ ∀ c ∈ k.data, isDigitChar c = true) :
    extract_field_differences (f1 ++ " - " ++ f2 ++ " " ++ op ++ " " ++ k) =
        [(f1, f2, op, ratOfDigits k.data [])] ∧
      extract_value_comparisons (f1 ++ " - " ++ f2 ++ " " ++ op ++ " " ++ k) =
        [(f2, op, Lit.num (ratOfDigits k.data []))] ∧
      ∀ df : DF,
        prefilterDF df (extract_value_comparisons (f1 ++ " - " ++ f2 ++ " " ++ op ++ " " ++ k)) =
          applyVC df (f2, op, Lit.num (ratOfDigits k.data [])) := by
  obtain ⟨hf1n, hf1w⟩ := hf1
  obtain ⟨hf2n, hf2w⟩ := hf2
  obtain ⟨hopn, hopo⟩ := hop
  obtain ⟨hkn, hkd⟩ := hk
  have hdata : (f1 ++ " - " ++ f2 ++ " " ++ op ++ " " ++ k).data =
      f1.data ++ (' ' :: '-' :: ' ' :: (f2.data ++ (' ' :: (op.data ++ (' ' :: k.data))))) := by
    simp only [String.data_append, List.append_assoc,
      show (" - " : String).data = [' ', '-', ' '] from rfl,
      show (" " : String).data = [' '] from rfl, List.cons_append, List.nil_append]
  have hL : (f1.data ++ (' ' :: '-' :: ' ' ::
      (f2.data ++ (' ' :: (op.data ++ (' ' :: k.data)))))).length =
      f1.data.length + f2.data.length + op.data.length + k.data.length + 5 := by
    simp [List.length_append, List.length_cons]
    omega
  have heta1 : (⟨f1.data⟩ : String) = f1 := rfl
  have heta2 : (⟨f2.data⟩ : String) = f2 := rfl
  have heta3 : (⟨op.data⟩ : String) = op := rfl
  have hdiff : extract_field_differences (f1 ++ " - " ++ f2 ++ " " ++ op ++ " " ++ k) =
      [(f1, f2, op, ratOfDigits k.data [])] := by
    simp only [extract_field_differences, hdata, hL]
    rw [show f1.data.length + f2.data.length + op.data.length + k.data.length + 5 =
        (f1.data.length + f2.data.length + op.data.length + k.data.length + 4) + 1
      from by omega]
    rw [diffGo_structured hf1n hf1w hf2n hf2w hopn hopo hkn hkd]
  have hnum : numGo (f1.data ++ (' ' :: '-' :: ' ' ::
      (f2.data ++ (' ' :: (op.data ++ (' ' :: k.data)))))).length
      (f1.data ++ (' ' :: '-' :: ' ' ::
        (f2.data ++ (' ' :: (op.data ++ (' ' :: k.data)))))) =
      [((⟨f2.data⟩ : String), (⟨op.data⟩ : String), ratOfDigits k.data [])] := by
    rw [hL]
    rw [show f1.data.length + f2.data.length + op.data.length + k.data.length + 5 =
        (f2.data.length + op.data.length + k.data.length + 1) + (f1.data.length + 4)
      from by omega]
    exact numGo_structured hf1w hf2n hf2w hopn hopo hkn hkd _
  have hstr : strGo (f1.data ++ (' ' :: '-' :: ' ' ::
      (f2.data ++ (' ' :: (op.data ++ (' ' :: k.data)))))).length
      (f1.data ++ (' ' :: '-' :: ' ' ::
        (f2.data ++ (' ' :: (op.data ++ (' ' :: k.data)))))) = [] := by
    obtain ⟨d, K', hdK⟩ : ∃ d K', k.data = d :: K' := by
      cases hc : k.data with
      | nil => exact absurd hc hkn
      | cons d K' => exact ⟨d, K', rfl⟩
    have hd : isDigitChar d = true := hkd d (by rw [hdK]; simp)
    have hK' : ∀ c ∈ K', isDigitChar c = true := fun c hc => hkd c (by rw [hdK]; simp [hc])
    rw [hL, hdK]
    rw [show f1.data.length + f2.data.length + op.data.length + (d :: K').length + 5 =
        0 + (f1.data.length + f2.data.length + op.data.length + K'.length + 6)
      from by simp [List.length_cons]; omega]
    exact strGo_structured hf1w hf2w hopn hopo hd hK' 0
  have hvc : extract_value_comparisons (f1 ++ " - " ++ f2 ++ " " ++ op ++ " " ++ k) =
      [(f2, op, Lit.num (ratOfDigits k.data []))] := by
    simp only [extract_value_comparisons, hdata, hnum, hstr, List.map_nil, List.map_cons,
      List.append_nil]
  refine ⟨hdiff, hvc, ?_⟩
  intro df
  rw [hvc]
  simp only [prefilterDF, List.foldlM]
  cases he : applyVC df (f2, op, Lit.num (ratOfDigits k.data [])) with
  | error e => rw [exceptBind_err]
  | ok dfm => rw [exceptBind_ok]; rfl

/-- Witness for C8 at the concrete condition `a - b < 3`. -/
theorem value_comparison_leak_witness :
    (("a" : String).data ≠ [] ∧ ∀ c ∈ ("a" : String).data, isWordChar c = true) ∧
      (extract_field_differences "a - b < 3" = [("a", "b", "<", ratOfDigits ['3'] [])] ∧
        extract_value_comparisons "a - b < 3" = [("b", "<", Lit.num (ratOfDigits ['3'] []))] ∧
        ∀ df : DF, prefilterDF df (extract_value_comparisons "a - b < 3") =
          applyVC df ("b", "<", Lit.num (ratOfDigits ['3'] []))) :=
  ⟨⟨by decide, by decide⟩,
    value_comparison_leak "a" "b" "<" "3" ⟨by decide, by decide⟩ ⟨by decide, by decide⟩
      ⟨by decide, by decide⟩ ⟨by decide, by decide⟩⟩

/-! ## C9 general scanning lemmas: `field == field` yields no
self-comparison because the backreference pattern needs a single `=` -/

theorem word_not_eqchar {c : Char} (h : isWordChar c = true) : (c == '=') = false := by
  apply beq_eq_false_iff_ne.mpr
  intro e
  subst e
  cases h

theorem selfGo_skip_f1 {X : List Char} :
    ∀ (w : List Char) (fuel : Nat), (∀ c ∈ w, isWordChar c = true) →
      selfGo (fuel + w.length) (w ++ (' ' :: '=' :: '=' :: ' ' :: X)) =
        selfGo fuel (' ' :: '=' :: '=' :: ' ' :: X) := by
  intro w
  induction w with
  | nil => intro fuel _; rfl
  | cons c w' ih =>
    intro fuel h
    have hc : isWordChar c = true := h c (by simp)
    have hw' : ∀ x ∈ w', isWordChar x = true := fun x hx => h x (by simp [hx])
    have harith : fuel + (c :: w').length = (fuel + w'.length) + 1 := by
      simp [List.length_cons]; omega
    rw [harith, List.cons_append]
    have e1 : List.takeWhile isWordChar (c :: (w' ++ (' ' :: '=' :: '=' :: ' ' :: X))) =
        c :: w' := by
      rw [← List.cons_append]
      rw [takeWhile_app_all _ (by intro x hx; rcases List.mem_cons.mp hx with e | e
                                  · exact e ▸ hc
                                  · exact hw' x e)]
      rw [takeWhile_eq_nil_of_head (by intro y ys he; cases he; rfl)]
      simp
    have e2 : List.dropWhile isWordChar (c :: (w' ++ (' ' :: '=' :: '=' :: ' ' :: X))) =
        ' ' :: '=' :: '=' :: ' ' :: X := by
      rw [← List.cons_append]
      rw [dropWhile_app_all _ (by intro x hx; rcases List.mem_cons.mp hx with e | e
                                  · exact e ▸ hc
                                  · exact hw' x e)]
      exact dropWhile_eq_self_of_head (by intro y ys he; cases he; rfl)
    have e3 : List.dropWhile isSpaceChar (' ' :: '=' :: '=' :: ' ' :: X) =
        '=' :: '=' :: ' ' :: X := by
      rw [List.dropWhile]
      simp only [show isSpaceChar ' ' = true from rfl]
      exact dropWhile_eq_self_of_head (by intro y ys he; cases he; rfl)
    have e4 : List.dropWhile isSpaceChar ('=' :: ' ' :: X) = '=' :: ' ' :: X :=
      dropWhile_eq_self_of_head (by intro y ys he; cases he; rfl)
    have e5 : List.isPrefixOf (c :: w') ('=' :: ' ' :: X) = false := by
      simp only [List.isPrefixOf, word_not_eqchar hc, Bool.false_and]
    simp only [List.cons_append, List.append_eq, selfGo, hc, if_true, e1, e2, e3, e4, e5,
      Bool.false_eq_true, if_false]
    exact ih fuel hw'

theorem selfGo_words_tail :
    ∀ (w : List Char) (fuel : Nat), (∀ c ∈ w, isWordChar c = true) →
      selfGo (fuel + w.length) w = [] := by
  intro w
  induction w with
  | nil => intro fuel _; exact selfGo_nil fuel
  | cons c w' ih =>
    intro fuel h
    have hc : isWordChar c = true := h c (by simp)
    have hw' : ∀ x ∈ w', isWordChar x = true := fun x hx => h x (by simp [hx])
    have harith : fuel + (c :: w').length = (fuel + w'.length) + 1 := by
      simp [List.length_cons]; omega
    rw [harith]
    have e1 : List.takeWhile isWordChar (c :: w') = c :: w' := takeWhile_all h
    have e2 : List.dropWhile isWordChar (c :: w') = [] := dropWhile_all h
    simp only [selfGo, hc, if_true, e1, e2, List.dropWhile_nil]
    exact ih fuel hw'

theorem selfGo_structured {F : List Char} (hFw : ∀ c ∈ F, isWordChar c = true) :
    ∀ fuel, selfGo (fuel + (F.length + F.length + 4))
      (F ++ (' ' :: '=' :: '=' :: ' ' :: F)) = [] := by
  intro fuel
  have a1 : fuel + (F.length + F.length + 4) =
      (fuel + (F.length + 4)) + F.length := by omega
  rw [a1, selfGo_skip_f1 F _ hFw]
  have a2 : fuel + (F.length + 4) = ((((fuel + F.length) + 1) + 1) + 1) + 1 := by omega
  rw [a2, selfGo_skip_nonword (c := ' ') rfl, selfGo_skip_nonword (c := '=') rfl,
    selfGo_skip_nonword (c := '=') rfl, selfGo_skip_nonword (c := ' ') rfl]
  exact selfGo_words_tail F fuel hFw

/-- C9: dataset conditions are taken raw (`apply_dataset_level_rule`
never calls the normalizer) and `extract_self_comparisons` only matches
the single-equals form, so a DataSet condition written `field == field`
(for any word-character field name) produces no self-comparison and
every pool falls into the unrecognized-structure branch, yielding the
empty frame. -/
theorem double_equals_unrecognized (f : String)
    (hf : ∀ c ∈ f.data, isWordChar c = true) :
    extract_self_comparisons (f ++ " == " ++ f) = [] ∧
      ∀ (df : DF) (id : Nat) (desc : String),
        apply_dataset_level_rule df id desc (f ++ " == " ++ f) = DF.emptyDF := by
  have hdata : (f ++ " == " ++ f).data =
      f.data ++ (' ' :: '=' :: '=' :: ' ' :: f.data) := by
    simp only [String.data_append, List.append_assoc,
      show (" == " : String).data = [' ', '=', '=', ' '] from rfl,
      List.cons_append, List.nil_append]
  have hsc : extract_self_comparisons (f ++ " == " ++ f) = [] := by
    simp only [extract_self_comparisons, hdata]
    rw [show (f.data ++ (' ' :: '=' :: '=' :: ' ' :: f.data)).length =
        0 + (f.data.length + f.data.length + 4) from by simp; omega]
    exact selfGo_structured hf 0
  exact ⟨hsc, fun df id desc => dataset_no_selfcomp df id desc _ hsc⟩

/-- Witness for C9 at the literal field name `field`. -/
theorem double_equals_unrecognized_witness :
    (∀ c ∈ ("field" : String).data, isWordChar c = true) ∧
      (extract_self_comparisons ("field" ++ " == " ++ "field") = [] ∧
        ∀ (df : DF) (id : Nat) (desc : String),
          apply_dataset_level_rule df id desc ("field" ++ " == " ++ "field") = DF.emptyDF) :=
  ⟨by decide, double_equals_unrecognized "field" (by decide)⟩

/-! ## C6 machinery.  The `=` substitution is idempotent outright; the
quote placeholder round trip is the identity on strings that do not
contain the character sequence `QUOTE_`, because then every placeholder
`__QUOTE_i__` occurs exactly once in the extracted string and
`str.replace` puts exactly the recorded span back. -/

/-- The character sequence `QUOTE_` shared by every placeholder. -/
def quoteMark : List Char := 'Q' :: 'U' :: 'O' :: 'T' :: 'E' :: '_' :: []

theorem occursB_infix_iff {P : List Char} :
    ∀ {s : List Char}, occursB P s = true ↔ P <:+: s := by
  intro s
  induction s with
  | nil =>
    simp only [occursB, List.isEmpty_iff]
    constructor
    · intro h; subst h; exact List.infix_rfl
    · intro h; exact List.eq_nil_of_infix_nil h
  | cons c r ih =>
    simp only [occursB, Bool.or_eq_true, List.isPrefixOf_iff_prefix, ih]
    rw [List.infix_cons_iff]

theorem occursB_false_iff {P s : List Char} :
    occursB P s = false ↔ ¬ P <:+: s := by
  rw [← occursB_infix_iff]
  cases occursB P s <;> simp

theorem occursB_append_false {P a b : List Char} (h : occursB P (a ++ b) = false) :
    occursB P a = false ∧ occursB P b = false := by
  rw [occursB_false_iff] at h
  constructor
  · rw [occursB_false_iff]
    intro hi
    exact h (hi.trans ⟨[], b, by simp⟩)
  · rw [occursB_false_iff]
    intro hi
    exact h (hi.trans ⟨a, [], by simp⟩)

theorem occursB_suffix_split {P : List Char} :
    ∀ {a b : List Char}, occursB P (a ++ b) = true →
      (∃ s, s ≠ [] ∧ s <:+ a ∧ P.isPrefixOf (s ++ b) = true) ∨ occursB P b = true := by
  intro a
  induction a with
  | nil => intro b h; exact Or.inr h
  | cons c a' ih =>
    intro b h
    simp only [List.cons_append, occursB, Bool.or_eq_true] at h
    rcases h with h | h
    · refine Or.inl ⟨c :: a', by simp, List.suffix_rfl, ?_⟩
      rw [List.cons_append]
      exact h
    · rcases ih h with ⟨s, hne, hsfx, hpfx⟩ | h2
      · exact Or.inl ⟨s, hne, hsfx.trans (List.suffix_cons c a'), hpfx⟩
      · exact Or.inr h2

/-- The full shape of `placeholder i` with the digits exposed. -/
def tokL (nd : List Char) : List Char :=
  '_' :: '_' :: 'Q' :: 'U' :: 'O' :: 'T' :: 'E' :: '_' :: (nd ++ ['_', '_'])

theorem placeholder_eq (i : Nat) : placeholder i = tokL (natDigits i) := rfl

theorem tok_decomp (nd : List Char) :
    tokL nd = ['_', '_'] ++ quoteMark ++ (nd ++ ['_', '_']) := rfl

theorem quoteMark_infix_tok (nd : List Char) : quoteMark <:+: tokL nd :=
  ⟨['_', '_'], nd ++ ['_', '_'], by rw [tok_decomp]⟩

theorem occurs_quoteMark_of_occurs_tok {nd s : List Char}
    (h : occursB (tokL nd) s = true) : occursB quoteMark s = true := by
  rw [occursB_infix_iff] at h ⊢
  exact (quoteMark_infix_tok nd).trans h

/-! Facts about the decimal rendering of placeholder indexes. -/

theorem natDigitsGo_suffix : ∀ (fuel n : Nat) (acc : List Char),
    ∃ ds, natDigitsGo fuel n acc = ds ++ acc := by
  intro fuel
  induction fuel with
  | zero => intro n acc; exact ⟨[], rfl⟩
  | succ fuel ih =>
    intro n acc
    simp only [natDigitsGo]
    by_cases h : n < 10
    · simp only [h, if_true]
      exact ⟨[Char.ofNat (48 + n % 10)], rfl⟩
    · simp only [h, if_false]
      obtain ⟨ds, hds⟩ := ih (n / 10) (Char.ofNat (48 + n % 10) :: acc)
      exact ⟨ds ++ [Char.ofNat (48 + n % 10)], by rw [hds]; simp⟩

theorem natDigits_ne_nil (n : Nat) : natDigits n ≠ [] := by
  simp only [natDigits, natDigitsGo]
  by_cases h : n < 10
  · simp [h]
  · simp only [h, if_false]
    obtain ⟨ds, hds⟩ := natDigitsGo_suffix n (n / 10) [Char.ofNat (48 + n % 10)]
    rw [hds]
    simp

theorem digitChar_is_digit (m : Nat) (h : m < 10) :
    isDigitChar (Char.ofNat (48 + m)) = true := by
  interval_cases m <;> decide

theorem natDigitsGo_digits : ∀ (fuel n : Nat) (acc : List Char),
    (∀ c ∈ acc, isDigitChar c = true) →
    ∀ c ∈ natDigitsGo fuel n acc, isDigitChar c = true := by
  intro fuel
  induction fuel with
  | zero => intro n acc hacc; exact hacc
  | succ fuel ih =>
    intro n acc hacc
    simp only [natDigitsGo]
    have hd : isDigitChar (Char.ofNat (48 + n % 10)) = true :=
      digitChar_is_digit (n % 10) (Nat.mod_lt _ (by omega))
    by_cases h : n < 10
    · simp only [h, if_true]
      intro c hc
      rcases List.mem_cons.mp hc with e | e
      · exact e ▸ hd
      · exact hacc c e
    · simp only [h, if_false]
      refine ih (n / 10) _ ?_
      intro c hc
      rcases List.mem_cons.mp hc with e | e
      · exact e ▸ hd
      · exact hacc c e

theorem natDigits_digits (n : Nat) : ∀ c ∈ natDigits n, isDigitChar c = true :=
  natDigitsGo_digits (n + 1) n [] (by intro c hc; cases hc)

theorem digit_ne_underscore {c : Char} (h : isDigitChar c = true) : (c = '_') = False := by
  simp only [eq_iff_iff, iff_false]
  intro e
  subst e
  cases h

theorem foldl_digits_linear :
    ∀ (ys : List Char) (A : Nat),
      List.foldl (fun a c => a * 10 + (c.toNat - 48)) A ys =
        A * 10 ^ ys.length + List.foldl (fun a c => a * 10 + (c.toNat - 48)) 0 ys := by
  intro ys
  induction ys with
  | nil => intro A; simp
  | cons c ys ih =>
    intro A
    simp only [List.foldl_cons]
    rw [ih (A * 10 + (c.toNat - 48)), ih (0 * 10 + (c.toNat - 48))]
    simp only [List.length_cons]
    ring

theorem toNat_digitChar (m : Nat) (h : m < 10) :
    (Char.ofNat (48 + m)).toNat - 48 = m := by
  interval_cases m <;> decide

theorem natDigitsGo_val : ∀ (fuel n : Nat) (acc : List Char), n < 10 ^ fuel →
    digitsToNat (natDigitsGo fuel n acc) = n * 10 ^ acc.length + digitsToNat acc := by
  intro fuel
  induction fuel with
  | zero =>
    intro n acc h
    simp only [pow_zero, Nat.lt_one_iff] at h
    subst h
    simp [natDigitsGo]
  | succ fuel ih =>
    intro n acc h
    have hm : n % 10 < 10 := Nat.mod_lt _ (by omega)
    have hdval : (Char.ofNat (48 + n % 10)).toNat - 48 = n % 10 := toNat_digitChar _ hm
    simp only [natDigitsGo]
    by_cases hlt : n < 10
    · simp only [hlt, if_true]
      simp only [digitsToNat, List.foldl_cons]
      rw [foldl_digits_linear acc (0 * 10 + ((Char.ofNat (48 + n % 10)).toNat - 48))]
      rw [hdval]
      have : n % 10 = n := Nat.mod_eq_of_lt hlt
      rw [this]
      simp
    · simp only [hlt, if_false]
      have hdiv : n / 10 < 10 ^ fuel := by
        have h10 : 10 ^ (fuel + 1) = 10 * 10 ^ fuel := by ring
        rw [h10] at h
        exact Nat.div_lt_of_lt_mul (by omega)
      rw [ih (n / 10) _ hdiv]
      simp only [digitsToNat, List.foldl_cons, List.length_cons]
      rw [foldl_digits_linear acc (0 * 10 + ((Char.ofNat (48 + n % 10)).toNat - 48))]
      rw [hdval]
      have hnm : n / 10 * 10 + n % 10 = n := by omega
      have : (0 : Nat) * 10 + n % 10 = n % 10 := by omega
      rw [this]
      calc n / 10 * 10 ^ (acc.length + 1) + (n % 10 * 10 ^ acc.length + digitsToNat acc)
          = (n / 10 * 10 + n % 10) * 10 ^ acc.length + digitsToNat acc := by ring
        _ = n * 10 ^ acc.length + digitsToNat acc := by rw [hnm]

theorem digitsToNat_natDigits (n : Nat) : digitsToNat (natDigits n) = n := by
  have hb : n < 10 ^ (n + 1) := by
    have h1 : n + 1 < 10 ^ (n + 1) := Nat.lt_pow_self (a := 10) (by omega) (n + 1)
    omega
  have := natDigitsGo_val (n + 1) n [] hb
  simpa [natDigits, digitsToNat] using this

theorem natDigits_injective {i j : Nat} (h : natDigits i = natDigits j) : i = j := by
  have hi := digitsToNat_natDigits i
  have hj := digitsToNat_natDigits j
  rw [h] at hi
  omega

/-! ### Idempotence of the `=` → `==` substitution.
`subEq` output is "protected": every `=` in it is either preceded by an
operator character or followed by another `=`, and `subEq` is the
identity on protected strings. -/

theorem subEqGo_nil (prev : Option Char) : subEqGo prev [] = [] := rfl

theorem subEqGo_cons (prev : Option Char) (c : Char) (rest : List Char) :
    subEqGo prev (c :: rest) =
      if c = '=' then
        if prevOp prev then '=' :: subEqGo (some '=') rest
        else if headIsEq rest then '=' :: subEqGo (some '=') rest
        else '=' :: '=' :: subEqGo (some '=') rest
      else c :: subEqGo (some c) rest := rfl

def protectedB : Option Char → List Char → Bool
  | _, [] => true
  | prev, c :: rest =>
    (if c = '=' then prevOp prev || headIsEq rest else true) && protectedB (some c) rest

theorem protectedB_cons (prev : Option Char) (c : Char) (rest : List Char) :
    protectedB prev (c :: rest) =
      ((if c = '=' then prevOp prev || headIsEq rest else true) &&
        protectedB (some c) rest) := rfl

theorem subEqGo_protects : ∀ (s : List Char) (prev : Option Char),
    protectedB prev (subEqGo prev s) = true := by
  intro s
  induction s with
  | nil => intro prev; rfl
  | cons c rest ih =>
    intro prev
    rw [subEqGo_cons]
    by_cases hc : c = '='
    · rw [if_pos hc]
      by_cases hp : prevOp prev = true
      · rw [if_pos hp, protectedB_cons, if_pos rfl, hp, Bool.true_or, Bool.true_and]
        exact ih (some '=')
      · rw [if_neg hp]
        by_cases hh : headIsEq rest = true
        · rw [if_pos hh, protectedB_cons, if_pos rfl]
          have hhead : headIsEq (subEqGo (some '=') rest) = true := by
            cases rest with
            | nil => exact absurd hh (by decide)
            | cons r rest2 =>
              have hr : r = '=' := of_decide_eq_true hh
              subst hr
              rw [subEqGo_cons, if_pos rfl,
                if_pos (show prevOp (some '=') = true from rfl)]
              rfl
          rw [hhead, Bool.or_true, Bool.true_and]
          exact ih (some '=')
        · rw [if_neg hh, protectedB_cons, if_pos rfl,
            show headIsEq ('=' :: subEqGo (some '=') rest) = true from rfl,
            Bool.or_true, Bool.true_and, protectedB_cons, if_pos rfl,
            show prevOp (some '=') = true from rfl, Bool.true_or, Bool.true_and]
          exact ih (some '=')
    · rw [if_neg hc, protectedB_cons, if_neg hc, Bool.true_and]
      exact ih (some c)

theorem subEqGo_protected_id : ∀ (s : List Char) (prev : Option Char),
    protectedB prev s = true → subEqGo prev s = s := by
  intro s
  induction s with
  | nil => intro prev _; rfl
  | cons c rest ih =>
    intro prev hp
    rw [protectedB_cons, Bool.and_eq_true] at hp
    obtain ⟨h1, h2⟩ := hp
    rw [subEqGo_cons]
    by_cases hc : c = '='
    · subst hc
      rw [if_pos rfl] at h1 ⊢
      rw [Bool.or_eq_true] at h1
      by_cases hpv : prevOp prev = true
      · rw [if_pos hpv, ih (some '=') h2]
      · rw [if_neg hpv]
        cases h1 with
        | inl h => exact absurd h hpv
        | inr hh => rw [if_pos hh, ih (some '=') h2]
    · rw [if_neg hc, ih (some c) h2]

theorem subEq_idem (s : List Char) : subEq (subEq s) = subEq s :=
  subEqGo_protected_id (subEqGo none s) none (subEqGo_protects s none)

/-! ### `subEq` inserts only `=` characters, so it cannot create an
occurrence of a pattern that avoids `=`. -/

theorem isPrefixOf_cons_cons {p b : Char} {P X : List Char} :
    (p :: P).isPrefixOf (b :: X) = ((p == b) && P.isPrefixOf X) := rfl

theorem occursB_cons {P : List Char} {c : Char} {r : List Char} :
    occursB P (c :: r) = (P.isPrefixOf (c :: r) || occursB P r) := rfl

theorem subEqGo_eq_head (prev : Option Char) (rest : List Char) :
    ∃ X, subEqGo prev ('=' :: rest) = '=' :: X := by
  rw [subEqGo_cons, if_pos rfl]
  by_cases hpv : prevOp prev = true
  · rw [if_pos hpv]; exact ⟨_, rfl⟩
  · rw [if_neg hpv]
    by_cases hh : headIsEq rest = true
    · rw [if_pos hh]; exact ⟨_, rfl⟩
    · rw [if_neg hh]; exact ⟨_, rfl⟩

theorem subEqGo_prefix_rev :
    ∀ (s : List Char) (prev : Option Char) (P : List Char), '=' ∉ P →
      P.isPrefixOf (subEqGo prev s) = true → P.isPrefixOf s = true := by
  intro s
  induction s with
  | nil => intro prev P _ h; exact h
  | cons c rest ih =>
    intro prev P hne h
    cases P with
    | nil => rfl
    | cons p P2 =>
      by_cases hc : c = '='
      · subst hc
        obtain ⟨X, hX⟩ := subEqGo_eq_head prev rest
        rw [hX, isPrefixOf_cons_cons, Bool.and_eq_true] at h
        have hp : p = '=' := by
          have := h.1
          rw [beq_iff_eq] at this
          exact this
        subst hp
        exact absurd (List.mem_cons_self _ _) hne
      · rw [subEqGo_cons, if_neg hc, isPrefixOf_cons_cons, Bool.and_eq_true] at h
        have hne2 : '=' ∉ P2 := fun hm => hne (List.mem_cons_of_mem _ hm)
        have := ih (some c) P2 hne2 h.2
        rw [isPrefixOf_cons_cons, Bool.and_eq_true]
        exact ⟨h.1, this⟩

theorem subEqGo_occurs_rev :
    ∀ (s : List Char) (prev : Option Char) (P : List Char), P ≠ [] → '=' ∉ P →
      occursB P (subEqGo prev s) = true → occursB P s = true := by
  intro s
  induction s with
  | nil => intro prev P _ _ h; exact h
  | cons c rest ih =>
    intro prev P hnil hne h
    by_cases hc : c = '='
    · subst hc
      rw [subEqGo_cons, if_pos rfl] at h
      by_cases hpv : prevOp prev = true
      · rw [if_pos hpv, occursB_cons, Bool.or_eq_true] at h
        cases h with
        | inl hpre =>
          rw [occursB_cons, Bool.or_eq_true]
          refine Or.inl (subEqGo_prefix_rev ('=' :: rest) prev P hne ?_)
          rw [subEqGo_cons, if_pos rfl, if_pos hpv]
          exact hpre
        | inr hocc =>
          rw [occursB_cons, Bool.or_eq_true]
          exact Or.inr (ih (some '=') P hnil hne hocc)
      · rw [if_neg hpv] at h
        by_cases hh : headIsEq rest = true
        · rw [if_pos hh, occursB_cons, Bool.or_eq_true] at h
          cases h with
          | inl hpre =>
            rw [occursB_cons, Bool.or_eq_true]
            refine Or.inl (subEqGo_prefix_rev ('=' :: rest) prev P hne ?_)
            rw [subEqGo_cons, if_pos rfl, if_neg hpv, if_pos hh]
            exact hpre
          | inr hocc =>
            rw [occursB_cons, Bool.or_eq_true]
            exact Or.inr (ih (some '=') P hnil hne hocc)
        · rw [if_neg hh, occursB_cons, Bool.or_eq_true] at h
          cases h with
          | inl hpre =>
            rw [occursB_cons, Bool.or_eq_true]
            refine Or.inl (subEqGo_prefix_rev ('=' :: rest) prev P hne ?_)
            rw [subEqGo_cons, if_pos rfl, if_neg hpv, if_neg hh]
            exact hpre
          | inr hocc =>
            rw [occursB_cons, Bool.or_eq_true] at hocc
            cases hocc with
            | inl hpre2 =>
              cases P with
              | nil => exact absurd rfl hnil
              | cons p P2 =>
                rw [isPrefixOf_cons_cons, Bool.and_eq_true] at hpre2
                have hp : p = '=' := by
                  have := hpre2.1
                  rw [beq_iff_eq] at this
                  exact this
                subst hp
                exact absurd (List.mem_cons_self _ _) hne
            | inr hocc2 =>
              rw [occursB_cons, Bool.or_eq_true]
              exact Or.inr (ih (some '=') P hnil hne hocc2)
    · rw [subEqGo_cons, if_neg hc, occursB_cons, Bool.or_eq_true] at h
      cases h with
      | inl hpre =>
        rw [occursB_cons, Bool.or_eq_true]
        refine Or.inl (subEqGo_prefix_rev (c :: rest) prev P hne ?_)
        rw [subEqGo_cons, if_neg hc]
        exact hpre
      | inr hocc =>
        rw [occursB_cons, Bool.or_eq_true]
        exact Or.inr (ih (some c) P hnil hne hocc)

theorem subEq_preserves_noU {s : List Char}
    (h : occursB quoteMark s = false) : occursB quoteMark (subEq s) = false := by
  cases hq : occursB quoteMark (subEq s) with
  | false => rfl
  | true =>
    have := subEqGo_occurs_rev s none quoteMark (by decide) (by decide) hq
    rw [this] at h
    exact absurd h (by decide)


/-! ### Occurrences under concatenation, and `str.replace` on a string
with exactly one occurrence of the pattern. -/

theorem occursB_false_of_infix {P s t : List Char}
    (h : occursB P s = false) (ht : t <:+: s) : occursB P t = false := by
  rw [occursB_false_iff] at h ⊢
  exact fun hi => h (hi.trans ht)

theorem append_eq_append_split3 {a b A P B : List Char}
    (h : a ++ b = A ++ (P ++ B)) :
    (∃ B1, a = A ++ (P ++ B1) ∧ B = B1 ++ b) ∨
    (∃ s t, s ≠ [] ∧ t ≠ [] ∧ P = s ++ t ∧ a = A ++ s ∧ b = t ++ B) ∨
    (∃ A2, A = a ++ A2 ∧ b = A2 ++ (P ++ B)) := by
  rw [List.append_eq_append_iff] at h
  rcases h with ⟨w, hA, hb⟩ | ⟨w, ha, hPB⟩
  · exact Or.inr (Or.inr ⟨w, hA, hb⟩)
  · rw [List.append_eq_append_iff] at hPB
    rcases hPB with ⟨u, hw, hB⟩ | ⟨u, hP, hbu⟩
    · exact Or.inl ⟨u, by rw [ha, hw], hB⟩
    · by_cases hw0 : w = []
      · subst hw0
        refine Or.inr (Or.inr ⟨[], by rw [ha]; simp, ?_⟩)
        rw [hbu, hP]
        simp
      · by_cases hu0 : u = []
        · subst hu0
          refine Or.inl ⟨[], ?_, ?_⟩
          · rw [ha, hP]
            simp
          · rw [hbu]
            simp
        · exact Or.inr (Or.inl ⟨w, u, hw0, hu0, hP, ha, hbu⟩)

theorem replaceGo_succ_cons (fuel : Nat) (pat rep : List Char) (c : Char)
    (rest : List Char) :
    replaceGo (fuel + 1) pat rep (c :: rest) =
      if pat.isPrefixOf (c :: rest) then
        rep ++ replaceGo fuel pat rep ((c :: rest).drop pat.length)
      else c :: replaceGo fuel pat rep rest := rfl

theorem replaceGo_no_occurrence :
    ∀ (fuel : Nat) (pat rep s : List Char), occursB pat s = false →
      replaceGo fuel pat rep s = s := by
  intro fuel
  induction fuel with
  | zero => intro pat rep s _; rfl
  | succ f ih =>
    intro pat rep s h
    cases s with
    | nil => rfl
    | cons c rest =>
      rw [occursB_cons, Bool.or_eq_false_iff] at h
      rw [replaceGo_succ_cons]
      rw [h.1]
      rw [if_neg Bool.false_ne_true]
      rw [ih pat rep rest h.2]

theorem not_prefix_head {c d : Char} {l m : List Char} (h : c ≠ d) :
    ¬ (c :: l <+: d :: m) :=
  fun hp => h (List.cons_prefix_cons.mp hp).1

/-- A placeholder `__QUOTE_<digits>__` cannot begin strictly inside a
string that does not contain `QUOTE_` when the text continues with two
underscores: every nonempty suffix of the scanned prefix either ends too
late (so the string would contain `QUOTE_`) or mismatches within the
first eight characters of the placeholder. -/
theorem tok_not_prefix_straddle {a s Z : List Char}
    (ha : a ≠ []) (had : ∀ c ∈ a, isDigitChar c = true)
    (hs : s ≠ []) (hnoU : occursB quoteMark s = false) :
    (tokL a).isPrefixOf (s ++ '_' :: '_' :: Z) = false := by
  cases hp : (tokL a).isPrefixOf (s ++ '_' :: '_' :: Z) with
  | false => rfl
  | true =>
    exfalso
    rw [List.isPrefixOf_iff_prefix] at hp
    have hsp : s <+: s ++ '_' :: '_' :: Z := List.prefix_append s _
    rcases List.prefix_or_prefix_of_prefix hsp hp with hstok | htos
    · simp only [tokL] at hp hstok
      rw [List.prefix_cons_iff] at hstok
      rcases hstok with rfl | ⟨s1, rfl, hstok⟩
      · exact hs rfl
      rw [List.prefix_cons_iff] at hstok
      rcases hstok with rfl | ⟨s2, rfl, hstok⟩
      · simp only [List.cons_append, List.nil_append] at hp
        obtain ⟨-, hp⟩ := List.cons_prefix_cons.mp hp
        obtain ⟨-, hp⟩ := List.cons_prefix_cons.mp hp
        exact not_prefix_head (by decide) hp
      rw [List.prefix_cons_iff] at hstok
      rcases hstok with rfl | ⟨s3, rfl, hstok⟩
      · simp only [List.cons_append, List.nil_append] at hp
        obtain ⟨-, hp⟩ := List.cons_prefix_cons.mp hp
        obtain ⟨-, hp⟩ := List.cons_prefix_cons.mp hp
        exact not_prefix_head (by decide) hp
      rw [List.prefix_cons_iff] at hstok
      rcases hstok with rfl | ⟨s4, rfl, hstok⟩
      · simp only [List.cons_append, List.nil_append] at hp
        obtain ⟨-, hp⟩ := List.cons_prefix_cons.mp hp
        obtain ⟨-, hp⟩ := List.cons_prefix_cons.mp hp
        obtain ⟨-, hp⟩ := List.cons_prefix_cons.mp hp
        exact not_prefix_head (by decide) hp
      rw [List.prefix_cons_iff] at hstok
      rcases hstok with rfl | ⟨s5, rfl, hstok⟩
      · simp only [List.cons_append, List.nil_append] at hp
        obtain ⟨-, hp⟩ := List.cons_prefix_cons.mp hp
        obtain ⟨-, hp⟩ := List.cons_prefix_cons.mp hp
        obtain ⟨-, hp⟩ := List.cons_prefix_cons.mp hp
        obtain ⟨-, hp⟩ := List.cons_prefix_cons.mp hp
        exact not_prefix_head (by decide) hp
      rw [List.prefix_cons_iff] at hstok
      rcases hstok with rfl | ⟨s6, rfl, hstok⟩
      · simp only [List.cons_append, List.nil_append] at hp
        obtain ⟨-, hp⟩ := List.cons_prefix_cons.mp hp
        obtain ⟨-, hp⟩ := List.cons_prefix_cons.mp hp
        obtain ⟨-, hp⟩ := List.cons_prefix_cons.mp hp
        obtain ⟨-, hp⟩ := List.cons_prefix_cons.mp hp
        obtain ⟨-, hp⟩ := List.cons_prefix_cons.mp hp
        exact not_prefix_head (by decide) hp
      rw [List.prefix_cons_iff] at hstok
      rcases hstok with rfl | ⟨s7, rfl, hstok⟩
      · simp only [List.cons_append, List.nil_append] at hp
        obtain ⟨-, hp⟩ := List.cons_prefix_cons.mp hp
        obtain ⟨-, hp⟩ := List.cons_prefix_cons.mp hp
        obtain ⟨-, hp⟩ := List.cons_prefix_cons.mp hp
        obtain ⟨-, hp⟩ := List.cons_prefix_cons.mp hp
        obtain ⟨-, hp⟩ := List.cons_prefix_cons.mp hp
        obtain ⟨-, hp⟩ := List.cons_prefix_cons.mp hp
        exact not_prefix_head (by decide) hp
      rw [List.prefix_cons_iff] at hstok
      rcases hstok with rfl | ⟨s8, rfl, hstok⟩
      · simp only [List.cons_append, List.nil_append] at hp
        obtain ⟨-, hp⟩ := List.cons_prefix_cons.mp hp
        obtain ⟨-, hp⟩ := List.cons_prefix_cons.mp hp
        obtain ⟨-, hp⟩ := List.cons_prefix_cons.mp hp
        obtain ⟨-, hp⟩ := List.cons_prefix_cons.mp hp
        obtain ⟨-, hp⟩ := List.cons_prefix_cons.mp hp
        obtain ⟨-, hp⟩ := List.cons_prefix_cons.mp hp
        obtain ⟨-, hp⟩ := List.cons_prefix_cons.mp hp
        obtain ⟨-, hp⟩ := List.cons_prefix_cons.mp hp
        cases a with
        | nil => exact ha rfl
        | cons a0 a2 =>
          simp only [List.cons_append] at hp
          exact not_prefix_head
            (fun hh => cast (digit_ne_underscore (had a0 (List.mem_cons_self _ _))) hh) hp
      · have hocc : occursB quoteMark
            ('_' :: '_' :: 'Q' :: 'U' :: 'O' :: 'T' :: 'E' :: '_' :: s8) = true := by
          rw [occursB_infix_iff]
          exact ⟨['_', '_'], s8, by simp [quoteMark]⟩
        rw [hocc] at hnoU
        exact absurd hnoU (by decide)
    · have hocc : occursB quoteMark s = true := by
        rw [occursB_infix_iff]
        exact (quoteMark_infix_tok a).trans htos.isInfix
      rw [hocc] at hnoU
      exact absurd hnoU (by decide)

/-- `str.replace` on `P ++ tok ++ S` where the pattern `tok` starts at no
position inside `P`, nor anywhere in `S`: exactly the designated
occurrence is replaced. -/
theorem replaceGo_exact :
    ∀ (P tok q S : List Char), tok ≠ [] →
      (∀ s, s ≠ [] → s <:+ P → tok.isPrefixOf (s ++ (tok ++ S)) = false) →
      occursB tok S = false →
      replaceGo (P ++ (tok ++ S)).length tok q (P ++ (tok ++ S)) = P ++ (q ++ S) := by
  intro P
  induction P with
  | nil =>
    intro tok q S htok hstr hS
    cases tok with
    | nil => exact absurd rfl htok
    | cons t tok2 =>
      simp only [List.nil_append, List.cons_append, List.length_cons]
      rw [replaceGo_succ_cons]
      have hpre : (t :: tok2).isPrefixOf (t :: (tok2 ++ S)) = true := by
        rw [List.isPrefixOf_iff_prefix, ← List.cons_append]
        exact List.prefix_append _ _
      rw [hpre, if_pos rfl]
      rw [show (t :: (tok2 ++ S)).drop (t :: tok2).length = S from by
        rw [← List.cons_append]; exact List.drop_left _ _]
      rw [replaceGo_no_occurrence _ _ _ _ hS]
  | cons c P2 ih =>
    intro tok q S htok hstr hS
    have hpre : tok.isPrefixOf ((c :: P2) ++ (tok ++ S)) = false :=
      hstr (c :: P2) (by simp) List.suffix_rfl
    simp only [List.cons_append, List.length_cons] at hpre ⊢
    rw [replaceGo_succ_cons, hpre, if_neg Bool.false_ne_true]
    have hstr2 : ∀ s, s ≠ [] → s <:+ P2 → tok.isPrefixOf (s ++ (tok ++ S)) = false :=
      fun s hs hsuf => hstr s hs (hsuf.trans (List.suffix_cons c P2))
    rw [ih tok q S htok hstr2 hS]

/-- Two all-digit runs each followed by an underscore and aligned at the
same position are equal. -/
theorem digits_underscore_inj :
    ∀ (a b u v : List Char), (∀ c ∈ a, isDigitChar c = true) →
      (∀ c ∈ b, isDigitChar c = true) →
      a ++ '_' :: u = b ++ '_' :: v → a = b := by
  intro a
  induction a with
  | nil =>
    intro b u v _ hb h
    cases b with
    | nil => rfl
    | cons b0 b2 =>
      rw [List.nil_append, List.cons_append] at h
      injection h with h1 h2
      exact (cast (digit_ne_underscore (hb b0 (List.mem_cons_self _ _))) h1.symm).elim
  | cons a0 a2 ih =>
    intro b u v ha hb h
    cases b with
    | nil =>
      rw [List.nil_append, List.cons_append] at h
      injection h with h1 h2
      exact (cast (digit_ne_underscore (ha a0 (List.mem_cons_self _ _))) h1).elim
    | cons b0 b2 =>
      rw [List.cons_append, List.cons_append] at h
      injection h with h1 h2
      rw [h1, ih b2 u v (fun c hc => ha c (List.mem_cons_of_mem _ hc))
        (fun c hc => hb c (List.mem_cons_of_mem _ hc)) h2]


/-! ### Characterization of the quote-extraction scan. -/

theorem quoteScan_cons (fuel i : Nat) (c : Char) (rest : List Char) :
    quoteScan (fuel + 1) i (c :: rest) =
      if c = '"' then
        match rest.dropWhile (fun x => x ≠ '"') with
        | [] => (c :: rest, [])
        | d :: after =>
          if d = '"' then
            (placeholder i ++ (quoteScan fuel (i + 1) after).1,
             (i, '"' :: (rest.takeWhile (fun x => x ≠ '"') ++ ['"'])) ::
               (quoteScan fuel (i + 1) after).2)
          else (c :: rest, [])
      else (c :: (quoteScan fuel i rest).1, (quoteScan fuel i rest).2) := rfl

theorem dropWhile_head_not :
    ∀ (l : List Char) (p : Char → Bool) (d : Char) (t : List Char),
      l.dropWhile p = d :: t → p d = false := by
  intro l
  induction l with
  | nil => intro p d t h; exact absurd h (by simp)
  | cons c l2 ih =>
    intro p d t h
    rw [List.dropWhile_cons] at h
    by_cases hp : p c = true
    · rw [if_pos hp] at h
      exact ih p d t h
    · rw [if_neg hp] at h
      injection h with h1 h2
      rw [← h1]
      exact Bool.not_eq_true _ |>.mp hp

theorem digit_ne_Q {c : Char} (h : isDigitChar c = true) : (c = 'Q') = False := by
  simp only [eq_iff_iff, iff_false]
  intro e
  subst e
  cases h

theorem tokL_last (nd : List Char) :
    tokL nd = ('_' :: '_' :: 'Q' :: 'U' :: 'O' :: 'T' :: 'E' :: '_' :: (nd ++ ['_'])) ++ ['_'] := by
  simp [tokL]

theorem tokL_ne_append_concat {nd A2 Y : List Char} {lc : Char} (hlc : lc ≠ '_')
    (h : tokL nd = A2 ++ (Y ++ [lc])) : False := by
  rw [tokL_last nd, ← List.append_assoc] at h
  have h2 := congrArg List.getLast? h
  rw [List.getLast?_concat, List.getLast?_concat] at h2
  injection h2 with h3
  exact hlc h3.symm

/-- The shape of `quoteScan`'s output: the input splits into `"`-free
segments separated by complete quoted spans, each span replaced in the
parsed output by its placeholder and recorded in order; an unmatched
trailing quote is left in place. -/
inductive ILv : Nat → List Char → List Char → List (Nat × List Char) → Prop
  | seg : ∀ (i : Nat) (sg : List Char), '"' ∉ sg → ILv i sg sg []
  | odd : ∀ (i : Nat) (sg content : List Char), '"' ∉ sg → '"' ∉ content →
      ILv i (sg ++ '"' :: content) (sg ++ '"' :: content) []
  | quote : ∀ (i : Nat) (sg content x2 parsed2 : List Char)
      (spans2 : List (Nat × List Char)),
      '"' ∉ sg → '"' ∉ content →
      ILv (i + 1) x2 parsed2 spans2 →
      ILv i (sg ++ ('"' :: (content ++ ['"'])) ++ x2)
            (sg ++ placeholder i ++ parsed2)
            ((i, '"' :: (content ++ ['"'])) :: spans2)

theorem ILv.prepend {i : Nat} {x parsed : List Char} {spans : List (Nat × List Char)}
    (c : Char) (hc : c ≠ '"') (h : ILv i x parsed spans) :
    ILv i (c :: x) (c :: parsed) spans := by
  cases h with
  | seg _ _ hs =>
    refine ILv.seg i _ (fun hm => ?_)
    rcases List.mem_cons.mp hm with h1 | h1
    · exact hc h1.symm
    · exact hs h1
  | odd _ sg content h1 h2 =>
    have hm : '"' ∉ c :: sg := fun hm => by
      rcases List.mem_cons.mp hm with h3 | h3
      · exact hc h3.symm
      · exact h1 h3
    exact ILv.odd i (c :: sg) content hm h2
  | quote _ sg content x2 parsed2 spans2 h1 h2 h3 =>
    have hm : '"' ∉ c :: sg := fun hm => by
      rcases List.mem_cons.mp hm with h4 | h4
      · exact hc h4.symm
      · exact h1 h4
    exact ILv.quote i (c :: sg) content x2 parsed2 spans2 hm h2 h3

theorem quoteScan_ILv : ∀ (fuel i : Nat) (x : List Char), x.length ≤ fuel →
    ILv i x (quoteScan fuel i x).1 (quoteScan fuel i x).2 := by
  intro fuel
  induction fuel with
  | zero =>
    intro i x hx
    have hn : x = [] := List.eq_nil_of_length_eq_zero (Nat.le_zero.mp hx)
    subst hn
    exact ILv.seg i [] (by simp)
  | succ f ih =>
    intro i x hx
    cases x with
    | nil => exact ILv.seg i [] (by simp)
    | cons c rest =>
      by_cases hc : c = '"'
      · subst hc
        cases hdw : rest.dropWhile (fun x => x ≠ '"') with
        | nil =>
          have hq : quoteScan (f + 1) i ('"' :: rest) = ('"' :: rest, []) := by
            rw [quoteScan_cons, if_pos rfl, hdw]
          rw [hq]
          have hrest : '"' ∉ rest := by
            intro hm
            have hr : rest = rest.takeWhile (fun x => x ≠ '"') := by
              conv_lhs => rw [← List.takeWhile_append_dropWhile (fun x => x ≠ '"') rest]
              rw [hdw, List.append_nil]
            rw [hr] at hm
            have := List.mem_takeWhile_imp hm
            simp at this
          exact ILv.odd i [] rest (by simp) hrest
        | cons d after =>
          have hd : d = '"' := by
            have h1 := dropWhile_head_not rest (fun x => x ≠ '"') d after hdw
            simpa using h1
          subst hd
          have hsplit : rest = rest.takeWhile (fun x => x ≠ '"') ++ '"' :: after := by
            conv_lhs => rw [← List.takeWhile_append_dropWhile (fun x => x ≠ '"') rest]
            rw [hdw]
          have hlen : after.length ≤ f := by
            have h1 : rest.length + 1 ≤ f + 1 := hx
            have h2 : rest.length =
                (rest.takeWhile (fun x => x ≠ '"')).length + (after.length + 1) := by
              conv_lhs => rw [hsplit]
              simp
            omega
          have hq : quoteScan (f + 1) i ('"' :: rest) =
              (placeholder i ++ (quoteScan f (i + 1) after).1,
               (i, '"' :: (rest.takeWhile (fun x => x ≠ '"') ++ ['"'])) ::
                 (quoteScan f (i + 1) after).2) := by
            rw [quoteScan_cons, if_pos rfl, hdw]
            rfl
          rw [hq]
          have hnoq : '"' ∉ rest.takeWhile (fun x => x ≠ '"') := by
            intro hm
            have := List.mem_takeWhile_imp hm
            simp at this
          have hcon := ILv.quote i [] (rest.takeWhile (fun x => x ≠ '"')) after
            (quoteScan f (i + 1) after).1 (quoteScan f (i + 1) after).2
            (by simp) hnoq (ih (i + 1) after hlen)
          have hxeq : ([] ++ ('"' :: (rest.takeWhile (fun x => x ≠ '"') ++ ['"']))) ++ after =
              '"' :: rest := by
            simp only [List.nil_append, List.cons_append, List.append_assoc,
              List.singleton_append]
            rw [← hsplit]
          rw [hxeq] at hcon
          exact hcon
      · have hq : quoteScan (f + 1) i (c :: rest) =
            (c :: (quoteScan f i rest).1, (quoteScan f i rest).2) := by
          rw [quoteScan_cons, if_neg hc]
        rw [hq]
        exact ILv.prepend c hc (ih i rest (Nat.le_of_succ_le_succ hx))


/-- Where `QUOTE_` can occur in a parsed string: either it is the marker
of one of the placeholders introduced at index `≥ k` (so it is followed by
that placeholder's digits and two underscores), or it is a coincidental
straddle whose next character is an underscore. -/
theorem ILv_quoteMark_occ {k : Nat} {x parsed : List Char} {spans : List (Nat × List Char)}
    (h : ILv k x parsed spans) : occursB quoteMark x = false →
      ∀ A B, parsed = A ++ (quoteMark ++ B) →
        (∃ m, k ≤ m ∧ ∃ B2, B = natDigits m ++ '_' :: '_' :: B2) ∨
        (∃ B2, B = '_' :: B2) := by
  induction h with
  | seg i sg hs =>
    intro hnoU A B hAB
    exfalso
    have hocc : occursB quoteMark sg = true := by
      rw [occursB_infix_iff]
      exact ⟨A, B, by rw [hAB, List.append_assoc]⟩
    rw [hocc] at hnoU
    exact absurd hnoU (by decide)
  | odd i sg content h1 h2 =>
    intro hnoU A B hAB
    exfalso
    have hocc : occursB quoteMark (sg ++ '"' :: content) = true := by
      rw [occursB_infix_iff]
      exact ⟨A, B, by rw [hAB, List.append_assoc]⟩
    rw [hocc] at hnoU
    exact absurd hnoU (by decide)
  | quote i sg content x2 parsed2 spans2 h1 h2 h3 ih =>
    intro hnoU A B hAB
    have hnoU1 := occursB_append_false hnoU
    have hnoUsg : occursB quoteMark sg = false := (occursB_append_false hnoU1.1).1
    have hnoUx2 : occursB quoteMark x2 = false := hnoU1.2
    rw [List.append_assoc] at hAB
    rcases append_eq_append_split3 hAB with ⟨B1, hsg, hB⟩ |
      ⟨s, t, hs0, ht0, hQM, hsg, hbt⟩ | ⟨A2, hA, hb⟩
    · exfalso
      have hocc : occursB quoteMark sg = true := by
        rw [occursB_infix_iff]
        exact ⟨A, B1, by rw [hsg, List.append_assoc]⟩
      rw [hocc] at hnoUsg
      exact absurd hnoUsg (by decide)
    · simp only [quoteMark] at hQM
      cases s with
      | nil => exact absurd rfl hs0
      | cons c1 s1 =>
        rw [List.cons_append] at hQM
        injection hQM with hc1 hQM
        subst hc1
        cases s1 with
        | nil =>
          rw [List.nil_append] at hQM
          subst hQM
          exfalso
          rw [placeholder_eq] at hbt
          simp only [tokL, List.cons_append, List.nil_append] at hbt
          injection hbt with hx1 _
          exact absurd hx1 (by decide)
        | cons c2 s2 =>
          rw [List.cons_append] at hQM
          injection hQM with hc2 hQM
          subst hc2
          cases s2 with
          | nil =>
            rw [List.nil_append] at hQM
            subst hQM
            exfalso
            rw [placeholder_eq] at hbt
            simp only [tokL, List.cons_append, List.nil_append] at hbt
            injection hbt with hx1 _
            exact absurd hx1 (by decide)
          | cons c3 s3 =>
            rw [List.cons_append] at hQM
            injection hQM with hc3 hQM
            subst hc3
            cases s3 with
            | nil =>
              rw [List.nil_append] at hQM
              subst hQM
              exfalso
              rw [placeholder_eq] at hbt
              simp only [tokL, List.cons_append, List.nil_append] at hbt
              injection hbt with hx1 _
              exact absurd hx1 (by decide)
            | cons c4 s4 =>
              rw [List.cons_append] at hQM
              injection hQM with hc4 hQM
              subst hc4
              cases s4 with
              | nil =>
                rw [List.nil_append] at hQM
                subst hQM
                exfalso
                rw [placeholder_eq] at hbt
                simp only [tokL, List.cons_append, List.nil_append] at hbt
                injection hbt with hx1 _
                exact absurd hx1 (by decide)
              | cons c5 s5 =>
                rw [List.cons_append] at hQM
                injection hQM with hc5 hQM
                subst hc5
                cases s5 with
                | nil =>
                  rw [List.nil_append] at hQM
                  subst hQM
                  rw [placeholder_eq] at hbt
                  simp only [tokL, List.cons_append, List.nil_append] at hbt
                  injection hbt with hx1 hbt
                  exact Or.inr ⟨_, hbt.symm⟩
                | cons c6 s6 =>
                  rw [List.cons_append] at hQM
                  injection hQM with hc6 hQM
                  exfalso
                  exact ht0 (List.append_eq_nil.mp hQM.symm).2
    · rw [placeholder_eq] at hb
      rcases append_eq_append_split3 hb with ⟨B1, htk, hB⟩ |
        ⟨s, t, hs0, ht0, hQM, htk, hbt⟩ | ⟨A22, hA2, hp2⟩
      · cases A2 with
        | nil =>
          exfalso
          simp only [List.nil_append, quoteMark, tokL, List.cons_append] at htk
          injection htk with hx1 _
          exact absurd hx1 (by decide)
        | cons a1 A21 =>
          simp only [quoteMark, tokL, List.cons_append, List.nil_append] at htk
          injection htk with hy1 htk
          cases A21 with
          | nil =>
            exfalso
            rw [List.nil_append] at htk
            injection htk with hx2 _
            exact absurd hx2 (by decide)
          | cons a2 A22x =>
            rw [List.cons_append] at htk
            injection htk with hy2 htk
            cases A22x with
            | nil =>
              rw [List.nil_append] at htk
              injection htk with e1 htk
              injection htk with e2 htk
              injection htk with e3 htk
              injection htk with e4 htk
              injection htk with e5 htk
              injection htk with e6 htk
              refine Or.inl ⟨i, Nat.le_refl i, parsed2, ?_⟩
              rw [hB, ← htk]
              simp
            | cons a3 A23 =>
              exfalso
              rw [List.cons_append] at htk
              injection htk with hy3 htk
              have hmem : ('Q' : Char) ∈ A23 ++ ('Q' :: 'U' :: 'O' :: 'T' :: 'E' :: '_' :: B1) :=
                List.mem_append.mpr (Or.inr (List.mem_cons_self _ _))
              rw [← htk] at hmem
              rcases List.mem_cons.mp hmem with hz | hmem
              · exact absurd hz (by decide)
              rcases List.mem_cons.mp hmem with hz | hmem
              · exact absurd hz (by decide)
              rcases List.mem_cons.mp hmem with hz | hmem
              · exact absurd hz (by decide)
              rcases List.mem_cons.mp hmem with hz | hmem
              · exact absurd hz (by decide)
              rcases List.mem_cons.mp hmem with hz | hmem
              · exact absurd hz (by decide)
              rcases List.mem_append.mp hmem with hz | hz
              · exact absurd (natDigits_digits i 'Q' hz) (by decide)
              · exact absurd hz (by decide)
      · exfalso
        simp only [quoteMark] at hQM
        cases s with
        | nil => exact absurd rfl hs0
        | cons c1 s1 =>
          rw [List.cons_append] at hQM
          injection hQM with hc1 hQM
          subst hc1
          cases s1 with
          | nil => exact @tokL_ne_append_concat (natDigits i) A2 [] 'Q' (by decide) htk
          | cons c2 s2 =>
            rw [List.cons_append] at hQM
            injection hQM with hc2 hQM
            subst hc2
            cases s2 with
            | nil => exact @tokL_ne_append_concat (natDigits i) A2 ['Q'] 'U' (by decide) htk
            | cons c3 s3 =>
              rw [List.cons_append] at hQM
              injection hQM with hc3 hQM
              subst hc3
              cases s3 with
              | nil =>
                exact @tokL_ne_append_concat (natDigits i) A2 ['Q', 'U'] 'O' (by decide) htk
              | cons c4 s4 =>
                rw [List.cons_append] at hQM
                injection hQM with hc4 hQM
                subst hc4
                cases s4 with
                | nil =>
                  exact @tokL_ne_append_concat (natDigits i) A2 ['Q', 'U', 'O'] 'T'
                    (by decide) htk
                | cons c5 s5 =>
                  rw [List.cons_append] at hQM
                  injection hQM with hc5 hQM
                  subst hc5
                  cases s5 with
                  | nil =>
                    exact @tokL_ne_append_concat (natDigits i) A2 ['Q', 'U', 'O', 'T'] 'E'
                      (by decide) htk
                  | cons c6 s6 =>
                    rw [List.cons_append] at hQM
                    injection hQM with hc6 hQM
                    exact ht0 (List.append_eq_nil.mp hQM.symm).2
      · rcases ih hnoUx2 A22 B hp2 with ⟨m, hm, B2, hB2⟩ | hund
        · exact Or.inl ⟨m, Nat.le_of_succ_le hm, B2, hB2⟩
        · exact Or.inr hund


/-- The parsed output at index `k` contains no occurrence of an
earlier placeholder `__QUOTE_j__`, `j < k`. -/
theorem ILv_no_earlier_placeholder {k : Nat} {x parsed : List Char}
    {spans : List (Nat × List Char)} (h : ILv k x parsed spans)
    (hnoU : occursB quoteMark x = false) {j : Nat} (hj : j < k) :
    occursB (placeholder j) parsed = false := by
  cases hq : occursB (placeholder j) parsed with
  | false => rfl
  | true =>
    exfalso
    rw [occursB_infix_iff] at hq
    obtain ⟨A, B0, hAB⟩ := hq
    have hdec : parsed =
        (A ++ ['_', '_']) ++ (quoteMark ++ (natDigits j ++ '_' :: '_' :: B0)) := by
      rw [← hAB, placeholder_eq, tok_decomp]
      simp [List.append_assoc]
    rcases ILv_quoteMark_occ h hnoU _ _ hdec with ⟨m, hm, B2, hB2⟩ | ⟨B2, hB2⟩
    · have hjm := digits_underscore_inj (natDigits j) (natDigits m) ('_' :: B0) ('_' :: B2)
        (natDigits_digits j) (natDigits_digits m) hB2
      have := natDigits_injective hjm
      omega
    · cases hnd : natDigits j with
      | nil => exact natDigits_ne_nil j hnd
      | cons d nd2 =>
        rw [hnd, List.cons_append] at hB2
        injection hB2 with h1 _
        exact cast (digit_ne_underscore
          (natDigits_digits j d (by rw [hnd]; exact List.mem_cons_self _ _))) h1

/-- Restoring the recorded spans undoes the placeholder substitution, in
any context `U` that keeps the whole string free of `QUOTE_`. -/
theorem ILv_restore {k : Nat} {x parsed : List Char} {spans : List (Nat × List Char)}
    (h : ILv k x parsed spans) :
    ∀ U, occursB quoteMark (U ++ x) = false → restore spans (U ++ parsed) = U ++ x := by
  induction h with
  | seg i sg hs => intro U _; rfl
  | odd i sg content h1 h2 => intro U _; rfl
  | quote i sg content x2 parsed2 spans2 h1 h2 h3 ih =>
    intro U hnoU
    have hnoU2 : occursB quoteMark
        ((U ++ sg) ++ (('"' :: (content ++ ['"'])) ++ x2)) = false := by
      rw [show (U ++ sg) ++ (('"' :: (content ++ ['"'])) ++ x2) =
          U ++ (sg ++ ('"' :: (content ++ ['"'])) ++ x2) from by simp [List.append_assoc]]
      exact hnoU
    have hnoUUsg : occursB quoteMark (U ++ sg) = false := (occursB_append_false hnoU2).1
    have hnoUx2 : occursB quoteMark x2 = false :=
      (occursB_append_false (occursB_append_false hnoU2).2).2
    show restore spans2 (replaceAll (placeholder i) ('"' :: (content ++ ['"']))
        (U ++ (sg ++ placeholder i ++ parsed2))) =
      U ++ (sg ++ ('"' :: (content ++ ['"'])) ++ x2)
    have hsubj : U ++ (sg ++ placeholder i ++ parsed2) =
        (U ++ sg) ++ (placeholder i ++ parsed2) := by simp [List.append_assoc]
    rw [hsubj]
    have hstr : ∀ t, t ≠ [] → t <:+ U ++ sg →
        (placeholder i).isPrefixOf (t ++ (placeholder i ++ parsed2)) = false := by
      intro t ht hsuf
      have hnoUt : occursB quoteMark t = false :=
        occursB_false_of_infix hnoUUsg hsuf.isInfix
      rw [show placeholder i ++ parsed2 =
          '_' :: '_' :: ('Q' :: 'U' :: 'O' :: 'T' :: 'E' :: '_' ::
            ((natDigits i ++ ['_', '_']) ++ parsed2)) from by
        rw [placeholder_eq]; simp [tokL]]
      rw [placeholder_eq]
      exact tok_not_prefix_straddle (natDigits_ne_nil i) (natDigits_digits i) ht hnoUt
    have hS : occursB (placeholder i) parsed2 = false :=
      ILv_no_earlier_placeholder h3 hnoUx2 (Nat.lt_succ_self i)
    have htok : placeholder i ≠ [] := by
      rw [placeholder_eq]
      simp [tokL]
    have hrepl : replaceAll (placeholder i) ('"' :: (content ++ ['"']))
        ((U ++ sg) ++ (placeholder i ++ parsed2)) =
        (U ++ sg) ++ (('"' :: (content ++ ['"'])) ++ parsed2) :=
      replaceGo_exact (U ++ sg) (placeholder i) ('"' :: (content ++ ['"'])) parsed2
        htok hstr hS
    rw [hrepl]
    rw [show (U ++ sg) ++ (('"' :: (content ++ ['"'])) ++ parsed2) =
        ((U ++ sg) ++ ('"' :: (content ++ ['"']))) ++ parsed2 from by
      simp [List.append_assoc]]
    have hnoU3 : occursB quoteMark
        (((U ++ sg) ++ ('"' :: (content ++ ['"']))) ++ x2) = false := by
      rw [show ((U ++ sg) ++ ('"' :: (content ++ ['"']))) ++ x2 =
          U ++ (sg ++ ('"' :: (content ++ ['"'])) ++ x2) from by simp [List.append_assoc]]
      exact hnoU
    rw [ih ((U ++ sg) ++ ('"' :: (content ++ ['"']))) hnoU3]
    simp [List.append_assoc]

/-- On inputs free of the marker `QUOTE_`, the whole quote dance is the
identity and normalization reduces to the `=` → `==` substitution. -/
theorem parse_of_noU (s : String) (h : occursB quoteMark s.data = false) :
    parse_condition_for_record_rule s = ⟨subEq s.data⟩ := by
  have hstep : occursB quoteMark (subEq s.data) = false := subEq_preserves_noU h
  have hIL := quoteScan_ILv ((subEq s.data).length + 1) 0 (subEq s.data) (Nat.le_succ _)
  have hres := ILv_restore hIL [] hstep
  simp only [List.nil_append] at hres
  show (⟨restore (quoteScan ((subEq s.data).length + 1) 0 (subEq s.data)).2
      (quoteScan ((subEq s.data).length + 1) 0 (subEq s.data)).1⟩ : String) =
    ⟨subEq s.data⟩
  rw [hres]


/-- C6 (amended): normalization is idempotent on every condition string
that does not contain the marker substring `QUOTE_`.  For such inputs the
placeholder extraction and the restore loop cancel exactly, so each
normalization pass is just the `=` → `==` substitution, which is
idempotent because its output protects every `=` it emits. -/
theorem normalize_idempotent_no_marker (s : String)
    (h : containsSub s "QUOTE_" = false) :
    parse_condition_for_record_rule (parse_condition_for_record_rule s) =
      parse_condition_for_record_rule s := by
  have h0 : occursB quoteMark s.data = false := h
  have h1 := parse_of_noU s h0
  rw [h1]
  have h2 : occursB quoteMark (String.mk (subEq s.data)).data = false :=
    subEq_preserves_noU h0
  have h3 := parse_of_noU ⟨subEq s.data⟩ h2
  rw [h3]
  show (⟨subEq (subEq s.data)⟩ : String) = ⟨subEq s.data⟩
  rw [subEq_idem]

/-- Witness: a condition with quotes, an interior `=`, and comparison
operators, free of the marker; normalization is idempotent on it. -/
theorem normalize_idempotent_no_marker_witness :
    containsSub "status = \"A=B\" AND amount >= 100" "QUOTE_" = false ∧
    parse_condition_for_record_rule
        (parse_condition_for_record_rule "status = \"A=B\" AND amount >= 100") =
      parse_condition_for_record_rule "status = \"A=B\" AND amount >= 100" :=
  ⟨by decide, normalize_idempotent_no_marker _ (by decide)⟩


end Rules
